import Mathlib

/-!
# Verification development for `wwq-2020/validator`

A shallow embedding of `src/validator.go` and `src/template.go`.

Go strings are embedded as Lean `String`s; the helpers of the Go standard
library that the program calls (`strings`, `reflect.StructTag`, `strconv`,
`path`, `html/template`) are embedded as structurally recursive functions on
character lists so that every definition evaluates on concrete inputs.
The global variables of `validator.go` become the fields of `State`, and every
function that reads or writes them takes and returns a `State`.
-/

namespace Validator

/-! ## Characters that are awkward to write as literals -/

/-- The back quote, the cutset of `strings.Trim` in `handleField`. -/
def backquote : Char := Char.ofNat 96

/-- The double quote. -/
def dquote : Char := Char.ofNat 34

/-- The single quote. -/
def squote : Char := Char.ofNat 39

/-- The backslash. -/
def backslash : Char := Char.ofNat 92

/-! ## Package `strings` -/

/-- Worker of `stringsReplace`: `skip` counts the characters of a match of
`old` that still have to be dropped. -/
def stringsReplaceGo (old new : List Char) : Nat → List Char → List Char
  | _, [] => if old = [] then new else []
  | skip + 1, _ :: s => stringsReplaceGo old new skip s
  | 0, c :: s =>
    if old.isPrefixOf (c :: s) then
      if old = [] then new ++ c :: stringsReplaceGo old new 0 s
      else new ++ stringsReplaceGo old new (old.length - 1) s
    else c :: stringsReplaceGo old new 0 s

/-- Go `strings.Replace(s, old, new, -1)`: every non-overlapping occurrence of
`old`, found from left to right, is replaced by `new`. -/
def stringsReplace (s old new : String) : String :=
  ⟨stringsReplaceGo old.data new.data 0 s.data⟩

/-- Go `strings.HasSuffix`. -/
def stringsHasSuffix (s suf : String) : Bool :=
  suf.data.isSuffixOf s.data

/-- Go `strings.Trim(s, cutset)` for a cutset of one character. -/
def stringsTrim (s : String) (cut : Char) : String :=
  ⟨((s.data.dropWhile (· == cut)).reverse.dropWhile (· == cut)).reverse⟩

/-- Worker of `stringsSplit` on character lists. -/
def stringsSplitGo (sep : Char) : List Char → List (List Char)
  | [] => [[]]
  | c :: rest =>
    if c = sep then [] :: stringsSplitGo sep rest
    else
      match stringsSplitGo sep rest with
      | [] => [[c]]
      | w :: ws => (c :: w) :: ws

/-- Go `strings.Split(s, sep)` for a separator of one character. -/
def stringsSplit (s : String) (sep : Char) : List String :=
  (stringsSplitGo sep s.data).map String.mk

/-! ## Package `strconv`: `Unquote` of a double-quoted literal -/

/-- Go `strconv.unhex`. -/
def unhex (c : Char) : Option Nat :=
  if '0' ≤ c ∧ c ≤ '9' then some (c.toNat - '0'.toNat)
  else if 'a' ≤ c ∧ c ≤ 'f' then some (c.toNat - 'a'.toNat + 10)
  else if 'A' ≤ c ∧ c ≤ 'F' then some (c.toNat - 'A'.toNat + 10)
  else none

/-- Value of a run of hexadecimal digits, `none` when one is not a digit. -/
def hexValue : List Char → Nat → Option Nat
  | [], v => some v
  | c :: cs, v => (unhex c).bind fun x => hexValue cs (v * 16 + x)

/-- Value of a run of octal digits, `none` when one is not a digit. -/
def octValue : List Char → Nat → Option Nat
  | [], v => some v
  | c :: cs, v =>
    if '0' ≤ c ∧ c ≤ '7' then octValue cs (v * 8 + (c.toNat - '0'.toNat)) else none

/-- Go `utf8.ValidRune`. -/
def validRune (v : Nat) : Bool :=
  v < 0xD800 || (0xDFFF < v && v ≤ 0x10FFFF)

/-- The escape sequence that follows a backslash, as decoded by Go
`strconv.UnquoteChar` with quote `"`: the decoded character and the rest.
A byte of value 128 or more written with a hexadecimal or octal escape is kept as the
character of that number; the program only compares the result with
`"required"` after splitting at commas, which this does not affect. -/
def unquoteEscape : List Char → Option (Char × List Char)
  | [] => none
  | c :: s =>
    if c = 'a' then some (Char.ofNat 7, s)
    else if c = 'b' then some (Char.ofNat 8, s)
    else if c = 'f' then some (Char.ofNat 12, s)
    else if c = 'n' then some (Char.ofNat 10, s)
    else if c = 'r' then some (Char.ofNat 13, s)
    else if c = 't' then some (Char.ofNat 9, s)
    else if c = 'v' then some (Char.ofNat 11, s)
    else if c = 'x' ∨ c = 'u' ∨ c = 'U' then
      let n := if c = 'x' then 2 else if c = 'u' then 4 else 8
      if s.length < n then none
      else
        (hexValue (s.take n) 0).bind fun v =>
          if c = 'x' then some (Char.ofNat v, s.drop n)
          else if validRune v then some (Char.ofNat v, s.drop n)
          else none
    else if '0' ≤ c ∧ c ≤ '7' then
      if s.length < 2 then none
      else
        (octValue (s.take 2) (c.toNat - '0'.toNat)).bind fun v =>
          if v > 255 then none else some (Char.ofNat v, s.drop 2)
    else if c = backslash then some (backslash, s)
    else if c = dquote then some (dquote, s)
    else none

/-- The loop of Go `strconv.unquote` over the text after the opening quote:
the unquoted value and what follows the closing quote. The fuel bounds the number
of iterations; each one consumes at least one character. -/
def unquoteLoop : Nat → List Char → Option (List Char × List Char)
  | 0, _ => none
  | _ + 1, [] => none
  | fuel + 1, c :: s =>
    if c = dquote then some ([], s)
    else if c = Char.ofNat 10 then none
    else if c = backslash then
      (unquoteEscape s).bind fun (r, rest) =>
        (unquoteLoop fuel rest).map fun (out, rem) => (r :: out, rem)
    else (unquoteLoop fuel s).map fun (out, rem) => (c :: out, rem)

/-- Go `strconv.Unquote` on a double-quoted literal (the only form that
`reflect.StructTag.Lookup` hands to it): `none` stands for `ErrSyntax`. -/
def strconvUnquote (s : List Char) : Option (List Char) :=
  match s with
  | [] => none
  | q :: body =>
    if q = dquote then
      match unquoteLoop (body.length + 1) body with
      | some (out, []) => some out
      | _ => none
    else none

/-! ## Package `reflect`: `StructTag.Get` -/

/-- The scan of `StructTag.Lookup` for the closing quote, started after the
opening quote: the text before the closing quote and the text after it. A
backslash skips the next character. -/
def scanQuoted : List Char → Option (List Char × List Char)
  | [] => none
  | c :: rest =>
    if c = dquote then some ([], rest)
    else if c = backslash then
      match rest with
      | [] => none
      | d :: rest2 => (scanQuoted rest2).map fun (q, r) => (c :: d :: q, r)
    else (scanQuoted rest).map fun (q, r) => (c :: q, r)

/-- The test of `StructTag.Lookup` for a character of a key. -/
def isKeyChar (c : Char) : Bool :=
  decide (' ' < c) && c != ':' && c != dquote && c != Char.ofNat 127

/-- Go `reflect.StructTag.Lookup`: the loop over the `key:"value"` pairs of a
tag. The fuel bounds the number of pairs. -/
def structTagLookup (key : List Char) : Nat → List Char → Option (List Char)
  | 0, _ => none
  | fuel + 1, tag =>
    let tag1 := tag.dropWhile (· == ' ')
    if tag1 = [] then none
    else
      let name := tag1.takeWhile isKeyChar
      match tag1.dropWhile isKeyChar with
      | colon :: quote :: rest =>
        if name = [] ∨ colon ≠ ':' ∨ quote ≠ dquote then none
        else
          match scanQuoted rest with
          | none => none
          | some (q, tag2) =>
            if key = name then strconvUnquote (dquote :: q ++ [dquote])
            else structTagLookup key fuel tag2
      | _ => none

/-- Go `reflect.StructTag.Get`: the value of the key, the empty string when the
tag has no such key or is malformed. -/
def structTagGet (tag key : String) : String :=
  ⟨(structTagLookup key.data (tag.length + 1) tag.data).getD []⟩

/-! ## The syntax tree (`go/ast`), as far as the program inspects it -/

mutual
/-- A type expression of `go/ast`. -/
inductive Expr where
  | Ident (Name : String)
  | StarExpr (X : Expr)
  | SelectorExpr (X : Expr) (Sel : String)
  | ArrayType (Elt : Expr)
  | MapType (Key : Expr) (Value : Expr)
  | StructType (Fields : Option (List Field))
  | InterfaceType
  | FuncType
  | ChanType (Value : Expr)
/-- A field declaration `ast.Field`: the declared names (none for an embedded
field), the type, and the text of the tag literal when there is one. -/
inductive Field where
  | mk (Names : List String) (Typ : Expr) (Tag : Option String)
end

/-- The names of a field declaration. -/
def Field.Names : Field → List String
  | .mk ns _ _ => ns

/-- The type of a field declaration (`each.Type`). -/
def Field.Typ : Field → Expr
  | .mk _ t _ => t

/-- The tag literal of a field declaration (`each.Tag.Value`), `none` for a nil `Tag`. -/
def Field.Tag : Field → Option String
  | .mk _ _ t => t

/-- Token of a general declaration. -/
inductive Token where
  | IMPORT | CONST | TYPE | VAR
  deriving DecidableEq

/-- A specification inside a general declaration. -/
inductive Spec where
  | ImportSpec
  | ValueSpec
  | TypeSpec (Name : String) (Typ : Expr)

/-- A top-level declaration. -/
inductive Decl where
  | GenDecl (Tok : Token) (Specs : List Spec)
  | FuncDecl
  | BadDecl

/-- A parsed source file `ast.File`: the package name and the declarations. -/
structure File where
  Name : String
  Decls : List Decl

/-! ## Global state of `validator.go` -/

/-- The `field` struct: one generated check. -/
structure field where
  IsEmpty : String
  Error : String
  deriving DecidableEq, Repr

/-- The `tpl` struct handed to the template. -/
structure tpl where
  Name : String
  Fields : List field
  deriving DecidableEq

/-- The package-level variables, the file system effect of `ioutil.WriteFile`
as the list `written` of (path, content) pairs, oldest first, and the trace
`handed` of the paths with which `handleFile` was called, oldest first. -/
structure State where
  dst : String
  mod : String
  recursive : Bool
  curStruct : String
  curPkg : String
  srcPkg : String
  curColumns : List String
  curValues : List String
  curFields : List field
  curBuf : String
  written : List (String × String)
  handed : List String
  deriving DecidableEq

/-- The state at program start once the flags are parsed: only `recursive`
has a flag; `dst` and `mod` keep their zero value. -/
def State.init (recursive : Bool) : State :=
  { dst := "", mod := "", recursive := recursive, curStruct := "", curPkg := "",
    srcPkg := "", curColumns := [], curValues := [], curFields := [], curBuf := "",
    written := [], handed := [] }

/-- The constant `suffix`. -/
def suffix : String := "_validator.go"

/-! ## `isBuiltIn` and `handleField` -/

/-- Function `isBuiltIn` of `validator.go`. -/
def isBuiltIn (typ : String) : Bool :=
  typ ∈ ["string", "int", "int8", "int32", "int64", "uint", "uint32", "uint64", "uint8",
    "float32", "float64"]

/-- The rule appended by the `case "string"` arm of `handleField`. -/
def textualRule (name : String) : field :=
  { IsEmpty := "src." ++ name ++ " == \"\"",
    Error := "errors.New(\"field " ++ name ++ " can't be empty\")" }

/-- The rule appended by the numeric arm of `handleField`. -/
def numericRule (name : String) : field :=
  { IsEmpty := "src." ++ name ++ " == 0",
    Error := "errors.New(\"field " ++ name ++ " can't be empty\")" }

/-- The list `tagValues` that `handleField` computes from a tag literal. -/
def tagValuesOf (tagLit : String) : List String :=
  let trimedValue := stringsTrim tagLit backquote
  let tagValue := structTagGet trimedValue "validator"
  stringsSplit tagValue ','

/-- One iteration of the loop of `handleField`. The result `none` is the
run-time panic of `each.Names[0]` on an empty name list. -/
def handleFieldEach (each : Field) (s : State) : Option State :=
  match each.Tag with
  | none => some s
  | some tagLit =>
    let tagValues := tagValuesOf tagLit
    if tagValues.length = 0 then some s
    else
      match each.Typ with
      | Expr.Ident name =>
        if tagValues.length > 0 ∧ tagValues.head? = some "required" then
          if name = "string" then
            each.Names.head?.map fun n =>
              { s with curFields := s.curFields ++ [textualRule n] }
          else if name ∈ ["int", "int8", "int32", "int64", "uint", "uint32", "uint64",
              "uint8", "float32", "float64"] then
            each.Names.head?.map fun n =>
              { s with curFields := s.curFields ++ [numericRule n] }
          else some s
        else some s
      | _ => some s

/-- Function `handleField` of `validator.go`. -/
def handleField : List Field → State → Option State
  | [], s => some s
  | each :: rest, s => (handleFieldEach each s).bind (handleField rest)

/-! ## Package `unicode` and `strings.Title` -/

/-- The tables of package `unicode` that `strings.Title` consults for a
character outside ASCII. Inside ASCII the functions below follow the Go code. -/
structure Unicode where
  IsLetter : Char → Bool
  IsDigit : Char → Bool
  IsSpace : Char → Bool
  ToTitle : Char → Char

/-- Go `unicode.ToTitle`: inside ASCII a lower-case letter loses 32, every other
character is unchanged; outside ASCII the table decides. -/
def toTitle (U : Unicode) (r : Char) : Char :=
  if r.toNat ≤ 0x7F then
    if 'a' ≤ r ∧ r ≤ 'z' then Char.ofNat (r.toNat - 32) else r
  else U.ToTitle r

/-- Go `strings.isSeparator`. -/
def isSeparator (U : Unicode) (r : Char) : Bool :=
  if r.toNat ≤ 0x7F then
    if '0' ≤ r ∧ r ≤ '9' then false
    else if 'a' ≤ r ∧ r ≤ 'z' then false
    else if 'A' ≤ r ∧ r ≤ 'Z' then false
    else if r = '_' then false
    else true
  else if U.IsLetter r || U.IsDigit r then false
  else U.IsSpace r

/-- The mapping closure of Go `strings.Title`, with its captured variable
`prev` as an argument. -/
def stringsTitleGo (U : Unicode) : Char → List Char → List Char
  | _, [] => []
  | prev, r :: s => (if isSeparator U prev then toTitle U r else r) :: stringsTitleGo U r s

/-- Go `strings.Title`. -/
def stringsTitle (U : Unicode) (s : String) : String :=
  ⟨stringsTitleGo U ' ' s.data⟩

/-- Function `title` of `validator.go`. -/
def title (U : Unicode) (prev : String) : String :=
  stringsTitle U (stringsReplace prev "id" "ID")

/-! ## Package `path` (and `path/filepath` on a system whose separator is `/`) -/

/-- The element loop of Go `path.Clean` on the elements between slashes: `out`
is the stack of kept elements, most recent first. -/
def cleanElems (rooted : Bool) : List (List Char) → List (List Char) → List (List Char)
  | out, [] => out.reverse
  | out, e :: rest =>
    if e = [] ∨ e = ['.'] then cleanElems rooted out rest
    else if e = ['.', '.'] then
      match out with
      | top :: below =>
        if top = ['.', '.'] then cleanElems rooted (e :: out) rest
        else cleanElems rooted below rest
      | [] => if rooted then cleanElems rooted [] rest else cleanElems rooted [e] rest
    else cleanElems rooted (e :: out) rest

/-- Go `path.Clean` on character lists. -/
def pathCleanGo (p : List Char) : List Char :=
  if p = [] then ['.']
  else
    let rooted := p.head? = some '/'
    let body := List.intercalate ['/'] (cleanElems rooted [] (stringsSplitGo '/' p))
    if rooted then '/' :: body
    else if body = [] then ['.']
    else body

/-- Go `path.Clean`. -/
def pathClean (p : String) : String := ⟨pathCleanGo p.data⟩

/-- Go `path.Dir`: the text up to and including the last slash, cleaned. -/
def pathDir (p : String) : String :=
  ⟨pathCleanGo (p.data.reverse.dropWhile (· != '/')).reverse⟩

/-- Go `path.Base`. -/
def pathBase (p : String) : String :=
  if p.data = [] then "."
  else
    let stripped := p.data.reverse.dropWhile (· == '/')
    let last := (stripped.takeWhile (· != '/')).reverse
    if last = [] then "/" else ⟨last⟩

/-- Go `path.Join` and `filepath.Join` of two elements. -/
def pathJoin (a b : String) : String :=
  if a.data = [] ∧ b.data = [] then ""
  else if a.data = [] then pathClean b
  else ⟨pathCleanGo (a.data ++ '/' :: b.data)⟩

/-! ## Package `html/template`: the rendering of `tplStr` -/

/-- The HTML escaper that `html/template` applies to a pipeline in text context
(`htmlReplacementTable`). It leaves a Go identifier unchanged. -/
def htmlEscape (s : String) : String :=
  ⟨s.data.flatMap fun c =>
    if c = Char.ofNat 0 then [Char.ofNat 0xFFFD]
    else if c = dquote then "&#34;".data
    else if c = '&' then "&amp;".data
    else if c = squote then "&#39;".data
    else if c = '+' then "&#43;".data
    else if c = '<' then "&lt;".data
    else if c = '>' then "&gt;".data
    else [c]⟩

/-- The body of the `range` action of `tplStr` for each field, in order. The
function `raw` turns the two strings into `template.HTML`, which the escaper
passes through unchanged. -/
def renderChecks : List field → String
  | [] => ""
  | f :: rest =>
    "\n\tif " ++ f.IsEmpty ++ " \x7b\n\t\treturn " ++ f.Error ++ "\n\t\x7d\n" ++ renderChecks rest

/-- The first half of `tplStr`, up to the closing brace of the value validator. -/
def renderValue (U : Unicode) (t : tpl) : String :=
  "\n// Validate" ++ htmlEscape (title U t.Name) ++ " Validate " ++ htmlEscape (title U t.Name)
    ++ "\nfunc Validate" ++ htmlEscape (title U t.Name) ++ "(src " ++ htmlEscape t.Name
    ++ ") error \x7b\n" ++ renderChecks t.Fields ++ "\n\treturn nil\n\x7d\n"

/-- The second half of `tplStr`: the reference validator. -/
def renderPointer (U : Unicode) (t : tpl) : String :=
  "\n\n// Validate" ++ htmlEscape (title U t.Name) ++ "Pointer Validate "
    ++ htmlEscape (title U t.Name) ++ "Pointer\nfunc Validate" ++ htmlEscape (title U t.Name)
    ++ "Pointer(src *" ++ htmlEscape t.Name
    ++ ") error \x7b\n\tif src == nil \x7b\n\t\treturn errors.New(\"src can't be nil\")\n\t\x7d\n"
    ++ renderChecks t.Fields ++ "\n\treturn nil\n\x7d\n"

/-- The execution of the template `tplStr` on a `tpl` value. -/
def renderTpl (U : Unicode) (t : tpl) : String :=
  renderValue U t ++ renderPointer U t

/-! ## `execTpl`, `handleStruct`, `reset`, `addImports`, `handleFile` -/

/-- Function `execTpl`: the template is executed on the current struct name
and rule list, and its output is appended to `curBuf`. -/
def execTpl (U : Unicode) (s : State) : State :=
  { s with curBuf := s.curBuf ++ renderTpl U { Name := s.curStruct, Fields := s.curFields } }

/-- Function `handleStruct` on a type specification with the given name and
type expression. -/
def handleStruct (U : Unicode) (name : String) (typ : Expr) (s : State) : Option State :=
  match typ with
  | Expr.StructType fields =>
    match fields with
    | none => some s
    | some list =>
      if list.length = 0 then some s
      else (handleField list { s with curStruct := name }).map (execTpl U)
  | _ => some s

/-- Function `reset`. -/
def reset (s : State) : State :=
  { s with curStruct := "", curColumns := [], curValues := [], curFields := [] }

/-- Function `addImports`: the header is written to `curBuf`. -/
def addImports (curDir : String) (s : State) : State :=
  let pre := "package " ++ s.curPkg ++ "\n\timport(\n\t\t\"errors\""
  let mid :=
    if s.dst ≠ "" then
      "\n\t\t\t\t" ++ s.curPkg ++ " \"" ++ pathJoin s.mod curDir ++ "\"\n\t\t\t"
    else ""
  let suf := "\n\t)"
  { s with curBuf := s.curBuf ++ (pre ++ mid ++ suf) }

/-- The walker of `handleFile` on the specifications of a general declaration
that is not an import declaration. -/
def walkSpecs (U : Unicode) : List Spec → State → Option State
  | [], s => some s
  | Spec.TypeSpec name typ :: rest, s =>
    (handleStruct U name typ s).bind fun s1 => walkSpecs U rest (reset s1)
  | _ :: rest, s => walkSpecs U rest s

/-- The walker of `handleFile` on the declarations of the file: function
declarations and import declarations are not entered. -/
def walkDecls (U : Unicode) : List Decl → State → Option State
  | [], s => some s
  | Decl.GenDecl tok specs :: rest, s =>
    if tok = Token.IMPORT then walkDecls U rest s
    else (walkSpecs U specs s).bind (walkDecls U rest)
  | _ :: rest, s => walkDecls U rest s

/-- The path that `handleFile` computes for its output file. -/
def fullPathOf (dst curPath : String) : String :=
  let baseDir := dst
  let curDir := pathDir curPath
  let name := pathBase curPath
  let baseDir := if baseDir = "" then curDir else baseDir
  pathJoin baseDir (stringsReplace name ".go" suffix)

/-- The state of `handleFile` after the walk, where the write is decided. -/
def handleFileWalked (U : Unicode) (curPath : String) (file : File) (s : State) :
    Option State :=
  walkDecls U file.Decls (addImports (pathDir curPath) { s with handed := s.handed ++ [curPath] })

/-- Function `handleFile`. The result `none` is a run-time panic. -/
def handleFile (U : Unicode) (curPath : String) (file : File) (s : State) : Option State :=
  (handleFileWalked U curPath file s).map fun s1 =>
    let s2 :=
      if s1.curBuf.length ≠ 0 then
        { s1 with written := s1.written ++ [(fullPathOf s1.dst curPath, s1.curBuf)] }
      else s1
    { s2 with curBuf := "" }

/-! ## `handleDirMode` and `handleFileMode` -/

/-- A file system tree as `filepath.Walk` sees it: an entry that is not a
directory carries the result of `parser.ParseFile` on it (`none` for a parse
error); a directory carries its entries in the order of `readDirNames`. -/
inductive FsNode where
  | file (name : String) (parsed : Option File)
  | dir (name : String) (entries : List FsNode)

/-- The name of an entry (`info.Name()`). -/
def FsNode.name : FsNode → String
  | .file n _ => n
  | .dir n _ => n

/-- The error value returned by the walk function and by `filepath.walk`. -/
inductive WalkResult where
  | nil
  | SkipDir
  | err
  deriving DecidableEq

/-- The function literal that `handleDirMode` passes to `filepath.Walk`,
called on an entry without a walk error. -/
def walkFn (U : Unicode) (curPath : String) (info : FsNode) (s : State) :
    Option (State × WalkResult) :=
  match info with
  | .dir _ _ => if s.recursive then some (s, .nil) else some (s, .SkipDir)
  | .file name parsed =>
    if stringsHasSuffix name suffix ∨ ¬ stringsHasSuffix name ".go" then some (s, .nil)
    else
      match parsed with
      | none => some (s, .err)
      | some file => (handleFile U curPath file s).map fun s1 => (s1, .nil)

mutual
/-- Go `filepath.walk` with the walk function of `handleDirMode`. -/
def walk (U : Unicode) (path : String) : FsNode → State → Option (State × WalkResult)
  | .file name parsed, s => walkFn U path (.file name parsed) s
  | .dir name entries, s =>
    match walkFn U path (.dir name entries) s with
    | none => none
    | some (s1, .nil) => walkEntries U path entries s1
    | some (s1, r) => some (s1, r)
/-- The loop of `filepath.walk` over the entries of the directory `path`. -/
def walkEntries (U : Unicode) (path : String) : List FsNode → State → Option (State × WalkResult)
  | [], s => some (s, .nil)
  | .file name parsed :: rest, s =>
    match walk U (pathJoin path name) (.file name parsed) s with
    | none => none
    | some (s1, .nil) => walkEntries U path rest s1
    | some (s1, r) => some (s1, r)
  | .dir name entries :: rest, s =>
    match walk U (pathJoin path name) (.dir name entries) s with
    | none => none
    | some (s1, .err) => some (s1, .err)
    | some (s1, _) => walkEntries U path rest s1
end

/-- Go `filepath.Walk` with the walk function of `handleDirMode`. -/
def filepathWalk (U : Unicode) (root : String) (tree : FsNode) (s : State) :
    Option (State × WalkResult) :=
  (walk U root tree s).map fun (s1, r) => if r = .SkipDir then (s1, .nil) else (s1, r)

/-- Function `handleDirMode`. The package name is what `build.ImportDir`
returns for the directory (`none` for an error); the tree is the directory
tree at `src`. The flag of the result tells whether `log.Fatalf` ended the
run; the result `none` is a run-time panic. -/
def handleDirMode (U : Unicode) (importDir : Option String) (src : String) (tree : FsNode)
    (s : State) : Option (State × Bool) :=
  let s0 := { s with srcPkg := "", curPkg := "" }
  match importDir with
  | none => some (s0, false)
  | some pName =>
    (filepathWalk U src tree { s0 with srcPkg := pName, curPkg := pName }).map
      fun (s1, r) => (s1, decide (r ≠ .nil))

/-- Function `handleFileMode`, with the result of parsing the global `src`
and of `build.ImportDir` on its directory. -/
def handleFileMode (U : Unicode) (importDir : Option String) (src : String)
    (parsed : Option File) (s : State) : Option (State × Bool) :=
  match parsed with
  | none => some (s, true)
  | some file =>
    match importDir with
    | none => some (s, false)
    | some pName =>
      (handleFile U src file { s with srcPkg := pName, curPkg := pName }).map
        fun s1 => (s1, false)

/-! ## Concrete inputs used in the examples -/

/-- Tables that treat every character outside ASCII as a caseless symbol. -/
def asciiTables : Unicode :=
  { IsLetter := fun _ => false, IsDigit := fun _ => false, IsSpace := fun _ => false,
    ToTitle := fun c => c }

/-- The tag literal of a field marked required. -/
def requiredTag : String := "`validator:\"required\"`"

/-- The state in which `handleFile` is entered for a unit of package `p`. -/
def stateP : State :=
  { State.init false with curPkg := "p", srcPkg := "p" }

/-! ## The generated validators: syntax and evaluation -/

/-- A statement of the body of a generated function. -/
inductive Stmt where
  /-- The statement `if cond then return result` of the `range` action. -/
  | ifReturn (cond : String) (result : String)
  /-- The statement `if src == nil then return result`. -/
  | ifNilReturn (result : String)
  /-- The statement `return nil`. -/
  | returnNil
  deriving DecidableEq

/-- A generated function `Validate<subject>` with one parameter `src`. -/
structure GoFunc where
  subject : String
  param : String
  body : List Stmt
  deriving DecidableEq

/-- The text of a statement as `tplStr` lays it out. -/
def Stmt.text : Stmt → String
  | .ifReturn cond result => "\n\tif " ++ cond ++ " \x7b\n\t\treturn " ++ result ++ "\n\t\x7d\n"
  | .ifNilReturn result => "\tif src == nil \x7b\n\t\treturn " ++ result ++ "\n\t\x7d\n"
  | .returnNil => "\n\treturn nil\n"

/-- The text of a statement list. -/
def stmtsText : List Stmt → String
  | [] => ""
  | st :: rest => st.text ++ stmtsText rest

/-- The text of a generated function as `tplStr` lays it out. -/
def GoFunc.text (g : GoFunc) : String :=
  "\n// Validate" ++ g.subject ++ " Validate " ++ g.subject ++ "\nfunc Validate" ++ g.subject
    ++ "(src " ++ g.param ++ ") error \x7b\n" ++ stmtsText g.body ++ "\x7d\n"

/-- The checks of the `range` action as statements. -/
def checkStmts (fields : List field) : List Stmt :=
  fields.map fun f => Stmt.ifReturn f.IsEmpty f.Error

/-- The expression returned for a nil reference. -/
def nilError : String := "errors.New(\"src can't be nil\")"

/-- The value validator that `tplStr` generates. -/
def valueValidator (U : Unicode) (t : tpl) : GoFunc :=
  { subject := htmlEscape (title U t.Name), param := htmlEscape t.Name,
    body := checkStmts t.Fields ++ [Stmt.returnNil] }

/-- The reference validator that `tplStr` generates. -/
def pointerValidator (U : Unicode) (t : tpl) : GoFunc :=
  { subject := htmlEscape (title U t.Name) ++ "Pointer", param := "*" ++ htmlEscape t.Name,
    body := Stmt.ifNilReturn nilError :: (checkStmts t.Fields ++ [Stmt.returnNil]) }

/-- The value of a field of the validated struct: a string or a number. -/
inductive GoValue where
  | str (x : String)
  | num (n : Int)
  deriving DecidableEq

/-- A value of the validated struct type: its fields with their values. -/
abbrev StructValue := List (String × GoValue)

/-- The value of an emptiness predicate on a struct value: `src.F == ""` on a
string field `F`, `src.F == 0` on a numeric field `F`. The result `none` means
that the text is neither, so that the generated function does not compile. -/
def evalIsEmpty : StructValue → String → Option Bool
  | [], _ => none
  | (name, GoValue.str x) :: rest, cond =>
    if cond = "src." ++ name ++ " == \"\"" then some (x == "") else evalIsEmpty rest cond
  | (name, GoValue.num n) :: rest, cond =>
    if cond = "src." ++ name ++ " == 0" then some (n == 0) else evalIsEmpty rest cond

/-- The execution of a function body on the argument `src`, `none` for a nil
reference. The result is the returned expression, or `none` inside for
`return nil`; `none` outside means that the body does not compile, dereferences
a nil reference, or ends without a return. -/
def execStmts (src : Option StructValue) : List Stmt → Option (Option String)
  | [] => none
  | Stmt.returnNil :: _ => some none
  | Stmt.ifNilReturn result :: rest =>
    match src with
    | none => some (some result)
    | some _ => execStmts src rest
  | Stmt.ifReturn cond result :: rest =>
    match src with
    | none => none
    | some v =>
      match evalIsEmpty v cond with
      | none => none
      | some true => some (some result)
      | some false => execStmts src rest

/-- The call of a generated function. -/
def GoFunc.call (g : GoFunc) (src : Option StructValue) : Option (Option String) :=
  execStmts src g.body

/-- The reference validator as the specification words it: a nil reference
is rejected with the fixed error, any other reference is handed to the value
validator. -/
def nilCheckThen (value : StructValue → Option (Option String)) :
    Option StructValue → Option (Option String)
  | none => some (some "errors.New(\"src can't be nil\")")
  | some v => value v

/-- The rules of a struct with the textual field `Name` and the numeric field
`Value`. -/
def widgetRules : List field := [textualRule "Name", numericRule "Value"]

/-! ## What `title` needs of the tables of package `unicode` -/

/-- The properties of the title-case table outside ASCII that the
idempotence of `title` rests on: a title-case character is its own title case,
title-casing does not turn a separator into a non-separator or back, and no
character has the lower-case letter `i` or `d` as its title case. -/
structure Unicode.Lawful (U : Unicode) : Prop where
  title_title : ∀ c : Char, 0x7F < c.toNat → toTitle U (U.ToTitle c) = U.ToTitle c
  sep_title : ∀ c : Char, 0x7F < c.toNat → isSeparator U (U.ToTitle c) = isSeparator U c
  title_ne_i : ∀ c : Char, 0x7F < c.toNat → U.ToTitle c ≠ 'i'
  title_ne_d : ∀ c : Char, 0x7F < c.toNat → U.ToTitle c ≠ 'd'

/-- The branch of `toTitle` inside ASCII. -/
def asciiTitle (r : Char) : Char :=
  if 'a' ≤ r ∧ r ≤ 'z' then Char.ofNat (r.toNat - 32) else r

/-- The branch of `isSeparator` inside ASCII. -/
def asciiSeparator (r : Char) : Bool :=
  if '0' ≤ r ∧ r ≤ '9' then false
  else if 'a' ≤ r ∧ r ≤ 'z' then false
  else if 'A' ≤ r ∧ r ≤ 'Z' then false
  else if r = '_' then false
  else true

/-- The replacement of `id` by `ID`, written by cases on the first two
characters. -/
def replaceId : List Char → List Char
  | [] => []
  | [c] => [c]
  | c :: d :: rest =>
    if c = 'i' ∧ d = 'd' then 'I' :: 'D' :: replaceId rest else c :: replaceId (d :: rest)

/-- The list has an `i` directly followed by a `d`. -/
def hasId : List Char → Bool
  | [] => false
  | [_] => false
  | c :: d :: rest => (c = 'i' ∧ d = 'd') || hasId (d :: rest)

/-- The fields of a struct with a textual and a numeric required field, a
required field of an unsupported type and a field without a tag. -/
def widgetFields : List Field :=
  [Field.mk ["Name"] (Expr.Ident "string") (some requiredTag),
   Field.mk ["Flag"] (Expr.Ident "bool") (some requiredTag),
   Field.mk ["Note"] (Expr.Ident "string") none,
   Field.mk ["Value"] (Expr.Ident "int") (some requiredTag)]

/-- The struct type `T` whose only field is a required field of type `bool`. -/
def flagStruct : Expr :=
  Expr.StructType (some [Field.mk ["Flag"] (Expr.Ident "bool") (some requiredTag)])

/-- A directory `proj` that holds the single source file `a.go`. -/
def flatTree : FsNode :=
  FsNode.dir "proj" [FsNode.file "a.go" (some ⟨"p", []⟩)]

/-- The field with another tag literal. -/
def Field.withTag (f : Field) (tagLit : String) : Field :=
  Field.mk f.Names f.Typ (some tagLit)

/-! ## Which fields are expected to yield a rule -/

/-- The field carries a tag whose `validator` value, split at commas, has
`required` as its first marker. -/
def requiredMarker (f : Field) : Bool :=
  match f.Tag with
  | none => false
  | some tagLit => (tagValuesOf tagLit).head? = some "required"

/-- The declared type of the field is an identifier that `isBuiltIn` accepts:
the textual type `string` or one of the numeric type names. -/
def supportedType (f : Field) : Bool :=
  match f.Typ with
  | Expr.Ident name => isBuiltIn name
  | _ => false

/-- The field is marked required and has a textual or numeric declared type. -/
def eligible (f : Field) : Bool :=
  requiredMarker f && supportedType f

/-- The rule of an eligible field: the textual rule for `string`, the numeric
rule otherwise, on the first declared name. -/
def ruleOf (f : Field) : field :=
  match f.Typ with
  | Expr.Ident name =>
    if name = "string" then textualRule (f.Names.headD "") else numericRule (f.Names.headD "")
  | _ => numericRule (f.Names.headD "")

/-! ## Value categories -/

/-- The value category of a declared type: the arm of the switch of
`handleField` that the type reaches. -/
inductive Category where
  | textual
  | numeric
  | unsupported
  deriving DecidableEq

/-- The value category that `handleField` gives to a declared type: only an
identifier reaches the switch, `string` is textual, the names of the second
case list are numeric. -/
def categoryOf : Expr → Category
  | Expr.Ident name =>
    if name = "string" then Category.textual
    else if name ∈ ["int", "int8", "int32", "int64", "uint", "uint32", "uint64", "uint8",
        "float32", "float64"] then Category.numeric
    else Category.unsupported
  | _ => Category.unsupported

/-- The field declaration `A, B string` with the required marker. -/
def twoNamesField : Field :=
  Field.mk ["A", "B"] (Expr.Ident "string") (some requiredTag)

/-- The embedded field `string` with the required marker: it declares no name. -/
def embeddedField : Field :=
  Field.mk [] (Expr.Ident "string") (some requiredTag)

/-- A field `P *int` with the required marker. -/
def pointerField : Field :=
  Field.mk ["P"] (Expr.StarExpr (Expr.Ident "int")) (some requiredTag)

/-! ## The replacement of `.go`, by cases -/

/-- The replacement of `.go` by `new`, written by cases on the first three
characters. -/
def replaceDotGo (new : List Char) : List Char → List Char
  | c :: d :: e :: rest =>
    if c = '.' ∧ d = 'g' ∧ e = 'o' then new ++ replaceDotGo new rest
    else c :: replaceDotGo new (d :: e :: rest)
  | [c, d] => [c, d]
  | [c] => [c]
  | [] => []

/-! ## File names -/

/-- A plain file name: not empty, without a slash, and neither `.` nor `..`. -/
def plainName (b : List Char) : Prop :=
  b ≠ [] ∧ '/' ∉ b ∧ b ≠ ['.'] ∧ b ≠ ['.', '.']

/-- The directory `proj` with the unit `a.go` of package `p` and the
subdirectory `sub` with the unit `b.go` of package `sub`. -/
def nestedTree : FsNode :=
  FsNode.dir "proj" [FsNode.file "a.go" (some ⟨"p", []⟩),
    FsNode.dir "sub" [FsNode.file "b.go" (some ⟨"sub", []⟩)]]

/-- The name of a generated function. -/
def GoFunc.name (g : GoFunc) : String := "Validate" ++ g.subject

/-! ## The entries to `handleStruct` during the walk of `handleFile` -/

/-- The states in which `handleStruct` is entered while the walker of
`handleFile` goes over the specifications of a declaration, in order; the
list ends with the entry that panics, if one does. -/
def structEntriesSpecs (U : Unicode) : List Spec → State → List State
  | [], _ => []
  | Spec.TypeSpec name typ :: rest, s =>
    s :: (match handleStruct U name typ s with
      | none => []
      | some s1 => structEntriesSpecs U rest (reset s1))
  | _ :: rest, s => structEntriesSpecs U rest s

/-- The states in which `handleStruct` is entered while the walker of
`handleFile` goes over the declarations of a file. -/
def structEntriesDecls (U : Unicode) : List Decl → State → List State
  | [], _ => []
  | Decl.GenDecl tok specs :: rest, s =>
    if tok = Token.IMPORT then structEntriesDecls U rest s
    else structEntriesSpecs U specs s ++
      (match walkSpecs U specs s with
        | none => []
        | some s1 => structEntriesDecls U rest s1)
  | _ :: rest, s => structEntriesDecls U rest s

/-- The states in which `handleStruct` is entered during a call of `handleFile`. -/
def structEntries (U : Unicode) (curPath : String) (file : File) (s : State) : List State :=
  structEntriesDecls U file.Decls
    (addImports (pathDir curPath) { s with handed := s.handed ++ [curPath] })

/-- Every field declaration of a struct type declares a name. -/
def Expr.named : Expr → Prop
  | Expr.StructType (some fields) => ∀ f ∈ fields, f.Names ≠ []
  | _ => True

/-- Every field declaration of a type specification declares a name. -/
def Spec.named : Spec → Prop
  | Spec.TypeSpec _ typ => typ.named
  | _ => True

/-- Every field declaration of a declaration declares a name. -/
def Decl.named : Decl → Prop
  | Decl.GenDecl _ specs => ∀ sp ∈ specs, sp.named
  | _ => True

/-- Every field declaration of the struct types of a file declares a name. -/
def File.named (file : File) : Prop :=
  ∀ d ∈ file.Decls, d.named

/-- The header that `addImports` writes when no destination root is set. -/
def headerOf (pkg : String) : String :=
  "package " ++ pkg ++ "\n\timport(\n\t\t\"errors\"" ++ "\n\t)"

/-- A unit of package `p` with the struct types `A` and `B`. -/
def twoStructFile : File :=
  ⟨"p", [Decl.GenDecl Token.TYPE
    [Spec.TypeSpec "A" (Expr.StructType (some
        [Field.mk ["Name"] (Expr.Ident "string") (some requiredTag)])),
      Spec.TypeSpec "B" (Expr.StructType (some
        [Field.mk ["Value"] (Expr.Ident "int") (some requiredTag)]))]]⟩

/-! ## Fields as the specification describes them -/

/-- A field annotation of the specification: the name of the field, its
declared type name, and the markers of its annotation under the reserved key,
in order, when the field has such an annotation. -/
structure FieldAnnotation where
  name : String
  typeName : String
  markers : Option (List String)

/-- The value category in the words of the specification: `string` is
textual, the standard fixed- and variable-width integer and floating-point
primitives are numeric, anything else is unsupported. -/
def specCategory (typeName : String) : Category :=
  if typeName = "string" then Category.textual
  else if typeName ∈ ["int", "int8", "int16", "int32", "int64", "uint", "uint8", "uint16",
      "uint32", "uint64", "float32", "float64"] then Category.numeric
  else Category.unsupported

/-- The condition of the specification for a field to get a rule: the first
marker of its annotation is `required` and its category is textual or numeric. -/
def specRequired (a : FieldAnnotation) : Bool :=
  (a.markers.bind List.head? == some "required")
    && (specCategory a.typeName != Category.unsupported)

/-- The markers of an annotation, separated by commas. -/
def joinMarkers : List String → String
  | [] => ""
  | [m] => m
  | m :: rest => m ++ "," ++ joinMarkers rest

/-- The declaration of an annotated field in a Go source file: one name, the
type name, and the annotation as the value of the key `validator` in a tag
written as a raw string literal. -/
def FieldAnnotation.toField (a : FieldAnnotation) : Field :=
  Field.mk [a.name] (Expr.Ident a.typeName)
    (a.markers.map fun ms =>
      String.mk [backquote] ++ "validator:\"" ++ joinMarkers ms ++ "\"" ++ String.mk [backquote])

/-- The fields of a struct type `Inventory`: three carry the required marker
first on a textual or numeric type (`Name string`, `Count int16`, `Value int`),
one has no annotation and one has the required marker in second place. -/
def inventoryFields : List FieldAnnotation :=
  [⟨"Name", "string", some ["required"]⟩,
   ⟨"Count", "int16", some ["required"]⟩,
   ⟨"Note", "string", none⟩,
   ⟨"Label", "string", some ["omitempty", "required"]⟩,
   ⟨"Value", "int", some ["required", "min"]⟩]

/-- The tag `validator:"required"` written as an interpreted string literal,
as it stands in the source file: `"validator:\"required\""`. -/
def interpretedTag : String := "\"validator:\\\"required\\\"\""

/-- The field `Name string` with the tag written as an interpreted string
literal. -/
def interpretedTagField : Field :=
  Field.mk ["Name"] (Expr.Ident "string") (some interpretedTag)

/-! ## Lemmas on `handleField` -/

theorem tagValuesOf_length_pos (tagLit : String) : (tagValuesOf tagLit).length ≠ 0 := by
  have h : ∀ (sep : Char) (l : List Char), stringsSplitGo sep l ≠ [] := by
    intro sep l
    induction l with
    | nil => simp [stringsSplitGo]
    | cons c rest ih =>
      simp only [stringsSplitGo]
      split
      · simp
      · split <;> simp
  simp only [tagValuesOf, stringsSplit, List.length_map, ne_eq, List.length_eq_zero]
  exact h _ _

theorem handleFieldEach_spec (f : Field) (s : State) (hn : f.Names ≠ []) :
    handleFieldEach f s =
      some { s with curFields := s.curFields ++ if eligible f then [ruleOf f] else [] } := by
  obtain ⟨ns, ty, tag⟩ := f
  simp only [Field.Names] at hn
  obtain ⟨n, more, rfl⟩ := List.exists_cons_of_ne_nil hn
  cases tag with
  | none => simp [handleFieldEach, Field.Tag, eligible, requiredMarker]
  | some tagLit =>
    have hlen := tagValuesOf_length_pos tagLit
    have hpos : (tagValuesOf tagLit).length > 0 := Nat.pos_of_ne_zero hlen
    cases ty <;>
      simp only [handleFieldEach, Field.Tag, Field.Typ, Field.Names, eligible, requiredMarker,
        supportedType, ruleOf, hlen, hpos, if_false, true_and, Bool.and_false,
        Bool.false_eq_true, List.append_nil]
    rename_i name
    by_cases hreq : (tagValuesOf tagLit).head? = some "required"
    · by_cases hs : name = "string"
      · subst hs
        simp [hreq, isBuiltIn]
      · by_cases hnum : name ∈ ["int", "int8", "int32", "int64", "uint", "uint32", "uint64",
            "uint8", "float32", "float64"]
        · have hb : isBuiltIn name = true := by
            simp only [isBuiltIn, List.mem_cons, decide_eq_true_eq] at hnum ⊢
            exact Or.inr hnum
          simp [hreq, hs, hnum, hb]
        · have hb : isBuiltIn name = false := by
            simp only [isBuiltIn, List.mem_cons, decide_eq_false_iff_not] at hnum ⊢
            intro h
            rcases h with h | h
            · exact hs h
            · exact hnum h
          simp [hreq, hs, hnum, hb]
    · simp [hreq]

theorem handleFieldEach_not_required (f : Field) (s : State) (h : requiredMarker f = false) :
    handleFieldEach f s = some s := by
  obtain ⟨ns, ty, tag⟩ := f
  cases tag with
  | none => simp [handleFieldEach, Field.Tag]
  | some tagLit =>
    have hreq : ¬ (tagValuesOf tagLit).head? = some "required" := by
      simpa [requiredMarker, Field.Tag] using h
    cases ty <;> simp [handleFieldEach, Field.Tag, Field.Typ, hreq]

theorem handleField_spec (fields : List Field) (s : State)
    (hn : ∀ f ∈ fields, f.Names ≠ []) :
    handleField fields s =
      some { s with curFields := s.curFields ++ (fields.filter eligible).map ruleOf } := by
  induction fields generalizing s with
  | nil => simp [handleField]
  | cons f rest ih =>
    have hf := handleFieldEach_spec f s (hn f (List.mem_cons_self _ _))
    have hrest : ∀ g ∈ rest, g.Names ≠ [] := fun g hg => hn g (List.mem_cons_of_mem _ hg)
    simp only [handleField, hf, Option.some_bind, ih _ hrest]
    by_cases he : eligible f = true
    · simp [he, List.filter_cons]
    · simp [he, List.filter_cons]

theorem names_ne_nil_of_length_one {fields : List Field}
    (h : ∀ f ∈ fields, f.Names.length = 1) : ∀ f ∈ fields, f.Names ≠ [] := by
  intro f hf hnil
  have := h f hf
  simp [hnil] at this

/-! ## What the functions leave unchanged -/

theorem handleFieldEach_frame (f : Field) (s s2 : State) (h : handleFieldEach f s = some s2) :
    s2.curBuf = s.curBuf ∧ s2.written = s.written ∧ s2.dst = s.dst := by
  obtain ⟨ns, ty, tag⟩ := f
  cases tag with
  | none =>
    simp only [handleFieldEach, Field.Tag, Option.some.injEq] at h
    subst h
    exact ⟨rfl, rfl, rfl⟩
  | some tagLit =>
    have hlen := tagValuesOf_length_pos tagLit
    cases ty <;> simp only [handleFieldEach, Field.Tag, Field.Typ, hlen, if_false] at h
    case Ident name =>
      repeat' split at h
      all_goals first
        | (cases h; exact ⟨rfl, rfl, rfl⟩)
        | (simp only [Option.map_eq_some'] at h
           obtain ⟨n, _, rfl⟩ := h
           exact ⟨rfl, rfl, rfl⟩)
    all_goals (cases h; exact ⟨rfl, rfl, rfl⟩)

theorem handleField_frame (fields : List Field) (s s2 : State)
    (h : handleField fields s = some s2) :
    s2.curBuf = s.curBuf ∧ s2.written = s.written ∧ s2.dst = s.dst := by
  induction fields generalizing s with
  | nil =>
    simp only [handleField, Option.some.injEq] at h
    subst h
    exact ⟨rfl, rfl, rfl⟩
  | cons f rest ih =>
    simp only [handleField, Option.bind_eq_some] at h
    obtain ⟨s1, h1, h2⟩ := h
    have a := handleFieldEach_frame f s s1 h1
    have b := ih s1 h2
    exact ⟨b.1.trans a.1, b.2.1.trans a.2.1, b.2.2.trans a.2.2⟩

theorem handleStruct_frame (U : Unicode) (name : String) (typ : Expr) (s s2 : State)
    (h : handleStruct U name typ s = some s2) :
    s.curBuf.length ≤ s2.curBuf.length ∧ s2.written = s.written ∧ s2.dst = s.dst := by
  unfold handleStruct at h
  repeat' split at h
  all_goals first
    | (cases h; exact ⟨le_refl _, rfl, rfl⟩)
    | (simp only [Option.map_eq_some'] at h
       obtain ⟨s1, h1, rfl⟩ := h
       have a := handleField_frame _ _ _ h1
       refine ⟨?_, a.2.1, a.2.2⟩
       simp only [execTpl, String.length_append, a.1]
       exact Nat.le_add_right _ _)

theorem walkSpecs_frame (U : Unicode) (specs : List Spec) (s s2 : State)
    (h : walkSpecs U specs s = some s2) :
    s.curBuf.length ≤ s2.curBuf.length ∧ s2.written = s.written ∧ s2.dst = s.dst := by
  induction specs generalizing s with
  | nil =>
    simp only [walkSpecs, Option.some.injEq] at h
    subst h
    exact ⟨le_refl _, rfl, rfl⟩
  | cons sp rest ih =>
    cases sp with
    | TypeSpec name typ =>
      simp only [walkSpecs, Option.bind_eq_some] at h
      obtain ⟨s1, h1, h2⟩ := h
      have a := handleStruct_frame U name typ s s1 h1
      have b := ih (reset s1) h2
      simp only [reset] at b
      exact ⟨le_trans a.1 b.1, b.2.1.trans a.2.1, b.2.2.trans a.2.2⟩
    | ImportSpec => exact ih s (by simpa [walkSpecs] using h)
    | ValueSpec => exact ih s (by simpa [walkSpecs] using h)

theorem walkDecls_frame (U : Unicode) (decls : List Decl) (s s2 : State)
    (h : walkDecls U decls s = some s2) :
    s.curBuf.length ≤ s2.curBuf.length ∧ s2.written = s.written ∧ s2.dst = s.dst := by
  induction decls generalizing s with
  | nil =>
    simp only [walkDecls, Option.some.injEq] at h
    subst h
    exact ⟨le_refl _, rfl, rfl⟩
  | cons d rest ih =>
    cases d with
    | GenDecl tok specs =>
      simp only [walkDecls] at h
      split at h
      · exact ih s h
      · simp only [Option.bind_eq_some] at h
        obtain ⟨s1, h1, h2⟩ := h
        have a := walkSpecs_frame U specs s s1 h1
        have b := ih s1 h2
        exact ⟨le_trans a.1 b.1, b.2.1.trans a.2.1, b.2.2.trans a.2.2⟩
    | FuncDecl => exact ih s (by simpa [walkDecls] using h)
    | BadDecl => exact ih s (by simpa [walkDecls] using h)

/-- Whenever `handleFile` returns, it has written one file, for the path that it
derives from the source path, and the content is not empty: the buffer holds at
least the header when the write is decided. -/
theorem handleFile_always_writes (U : Unicode) (curPath : String) (file : File) (s s2 : State)
    (h : handleFile U curPath file s = some s2) :
    ∃ content, content.length ≠ 0 ∧
      s2.written = s.written ++ [(fullPathOf s.dst curPath, content)] := by
  simp only [handleFile, Option.map_eq_some'] at h
  obtain ⟨s1, h1, rfl⟩ := h
  have a := walkDecls_frame U _ _ _ h1
  simp only [addImports, String.length_append] at a
  have hp : ("package " : String).length = 8 := by decide
  have hlen : s1.curBuf.length ≠ 0 := by omega
  refine ⟨s1.curBuf, hlen, ?_⟩
  simp [hlen, a.2.1, a.2.2]

/-! ## The walk of `handleDirMode` -/

/-- With the recursion flag unset, directory mode never calls `handleFile`,
whatever the directory holds. -/
theorem handleDirMode_flat (U : Unicode) (pName src name : String) (entries : List FsNode)
    (s : State) (hrec : s.recursive = false) :
    handleDirMode U (some pName) src (FsNode.dir name entries) s
      = some ({ s with srcPkg := pName, curPkg := pName }, false) := by
  simp [handleDirMode, filepathWalk, walk, walkFn, hrec]

/-! ## The generated validators -/

theorem renderChecks_eq_stmtsText (fields : List field) (tail : List Stmt) :
    stmtsText (checkStmts fields ++ tail) = renderChecks fields ++ stmtsText tail := by
  induction fields with
  | nil => simp [checkStmts, stmtsText, renderChecks]
  | cons f rest ih =>
    show stmtsText (Stmt.ifReturn f.IsEmpty f.Error :: (checkStmts rest ++ tail)) = _
    simp only [stmtsText, Stmt.text, renderChecks, ih, String.append_assoc]

theorem renderValue_eq_text (U : Unicode) (t : tpl) :
    renderValue U t = (valueValidator U t).text := by
  have h1 : ("\n\treturn nil\n\x7d\n" : String) = "\n\treturn nil\n" ++ "\x7d\n" := by decide
  simp only [renderValue, GoFunc.text, valueValidator, renderChecks_eq_stmtsText, stmtsText,
    Stmt.text, h1, String.append_assoc, String.append_empty]

theorem renderPointer_eq_text (U : Unicode) (t : tpl) :
    renderPointer U t = "\n" ++ (pointerValidator U t).text := by
  have h1 : ("\n\treturn nil\n\x7d\n" : String) = "\n\treturn nil\n" ++ "\x7d\n" := by decide
  have h2 : ("\n\n// Validate" : String) = "\n" ++ "\n// Validate" := by decide
  have h3 : ("Pointer Validate " : String) = "Pointer" ++ " Validate " := by decide
  have h4 : ("Pointer\nfunc Validate" : String) = "Pointer" ++ "\nfunc Validate" := by decide
  have h5 : ("Pointer(src *" : String) = "Pointer" ++ ("(src " ++ "*") := by decide
  have h6 : (") error \x7b\n\tif src == nil \x7b\n\t\treturn errors.New(\"src can't be nil\")\n\t\x7d\n"
      : String) = ") error \x7b\n" ++ ("\tif src == nil \x7b\n\t\treturn "
        ++ ("errors.New(\"src can't be nil\")" ++ "\n\t\x7d\n")) := by decide
  simp only [renderPointer, GoFunc.text, pointerValidator, renderChecks_eq_stmtsText, stmtsText,
    Stmt.text, nilError, h1, h2, h3, h4, h5, h6, String.append_assoc, String.append_empty]

theorem execStmts_checks (v : StructValue) (rules : List field)
    (htyped : ∀ f ∈ rules, (evalIsEmpty v f.IsEmpty).isSome = true) :
    execStmts (some v) (checkStmts rules ++ [Stmt.returnNil])
      = some ((rules.find? fun f => evalIsEmpty v f.IsEmpty == some true).map (·.Error)) := by
  induction rules with
  | nil => simp [checkStmts, execStmts]
  | cons f rest ih =>
    have hf := htyped f (List.mem_cons_self _ _)
    have hrest := ih fun g hg => htyped g (List.mem_cons_of_mem _ hg)
    simp only [checkStmts, List.map_cons, List.cons_append, execStmts] at hrest ⊢
    cases hv : evalIsEmpty v f.IsEmpty with
    | none => simp [hv] at hf
    | some b =>
      cases b with
      | true => simp [List.find?_cons, hv]
      | false => simpa [List.find?_cons, hv] using hrest

theorem evalIsEmpty_bool_cases (v : StructValue) (cond : String)
    (h : (evalIsEmpty v cond).isSome = true) :
    ¬ evalIsEmpty v cond = some true ↔ evalIsEmpty v cond = some false := by
  cases hv : evalIsEmpty v cond with
  | none => simp [hv] at h
  | some b => cases b <;> simp

/-! ## The name transform `title` -/

set_option maxRecDepth 100000 in
theorem ascii_facts : ∀ n : Nat, n < 128 →
    (asciiTitle (Char.ofNat n)).toNat ≤ 0x7F ∧
    asciiTitle (asciiTitle (Char.ofNat n)) = asciiTitle (Char.ofNat n) ∧
    asciiSeparator (asciiTitle (Char.ofNat n)) = asciiSeparator (Char.ofNat n) ∧
    asciiTitle (Char.ofNat n) ≠ 'i' ∧ asciiTitle (Char.ofNat n) ≠ 'd' := by
  decide

theorem ascii_facts_char (c : Char) (h : c.toNat ≤ 0x7F) :
    (asciiTitle c).toNat ≤ 0x7F ∧ asciiTitle (asciiTitle c) = asciiTitle c ∧
    asciiSeparator (asciiTitle c) = asciiSeparator c ∧
    asciiTitle c ≠ 'i' ∧ asciiTitle c ≠ 'd' := by
  have := ascii_facts c.toNat (by omega)
  rwa [Char.ofNat_toNat] at this

theorem toTitle_ascii (U : Unicode) (c : Char) (h : c.toNat ≤ 0x7F) :
    toTitle U c = asciiTitle c := by
  simp [toTitle, asciiTitle, h]

theorem isSeparator_ascii (U : Unicode) (c : Char) (h : c.toNat ≤ 0x7F) :
    isSeparator U c = asciiSeparator c := by
  simp [isSeparator, asciiSeparator, h]

theorem toTitle_nonascii (U : Unicode) (c : Char) (h : ¬ c.toNat ≤ 0x7F) :
    toTitle U c = U.ToTitle c := by
  simp [toTitle, h]

theorem toTitle_toTitle (U : Unicode) (hU : U.Lawful) (c : Char) :
    toTitle U (toTitle U c) = toTitle U c := by
  by_cases h : c.toNat ≤ 0x7F
  · have hf := ascii_facts_char c h
    rw [toTitle_ascii U c h, toTitle_ascii U _ hf.1]
    exact hf.2.1
  · rw [toTitle_nonascii U c h]
    exact hU.title_title c (by omega)

theorem isSeparator_toTitle (U : Unicode) (hU : U.Lawful) (c : Char) :
    isSeparator U (toTitle U c) = isSeparator U c := by
  by_cases h : c.toNat ≤ 0x7F
  · have hf := ascii_facts_char c h
    rw [toTitle_ascii U c h, isSeparator_ascii U _ hf.1, isSeparator_ascii U c h]
    exact hf.2.2.1
  · rw [toTitle_nonascii U c h]
    exact hU.sep_title c (by omega)

theorem toTitle_ne_i_d (U : Unicode) (hU : U.Lawful) (c : Char) :
    toTitle U c ≠ 'i' ∧ toTitle U c ≠ 'd' := by
  by_cases h : c.toNat ≤ 0x7F
  · have hf := ascii_facts_char c h
    rw [toTitle_ascii U c h]
    exact hf.2.2.2
  · rw [toTitle_nonascii U c h]
    exact ⟨hU.title_ne_i c (by omega), hU.title_ne_d c (by omega)⟩

theorem stringsReplaceGo_id (l : List Char) :
    stringsReplaceGo ['i', 'd'] ['I', 'D'] 0 l = replaceId l := by
  induction l using replaceId.induct with
  | case1 => decide
  | case2 c =>
    by_cases hc : c = 'i' <;> simp [stringsReplaceGo, replaceId, List.isPrefixOf, hc]
  | case3 c d rest h ih =>
    obtain ⟨rfl, rfl⟩ := h
    simp [stringsReplaceGo, replaceId, List.isPrefixOf, ih]
  | case4 c d rest h ih =>
    have hp : ¬ List.isPrefixOf ['i', 'd'] (c :: d :: rest) = true := by
      simp only [List.isPrefixOf, Bool.and_true, Bool.and_eq_true, beq_iff_eq, not_and]
      intro hc hd
      exact h ⟨hc.symm, hd.symm⟩
    rw [replaceId, if_neg h, ← ih, stringsReplaceGo, if_neg hp]

theorem hasId_cons (c : Char) (l : List Char) :
    hasId (c :: l) = ((decide (c = 'i') && (l.head? == some 'd')) || hasId l) := by
  cases l with
  | nil => simp [hasId]
  | cons d rest =>
    by_cases hc : c = 'i' <;> by_cases hd : d = 'd' <;> simp [hasId, hc, hd]

theorem replaceId_head (l : List Char) (h : (replaceId l).head? = some 'd') :
    l.head? = some 'd' := by
  match l with
  | [] => simp [replaceId] at h
  | [c] => simpa [replaceId] using h
  | c :: d :: rest =>
    by_cases hcd : c = 'i' ∧ d = 'd'
    · simp [replaceId, hcd] at h
    · simpa [replaceId, hcd] using h

theorem hasId_replaceId (l : List Char) : hasId (replaceId l) = false := by
  induction l using replaceId.induct with
  | case1 => rfl
  | case2 c => rfl
  | case3 c d rest h ih =>
    simp [replaceId, h, hasId_cons, ih]
  | case4 c d rest h ih =>
    simp only [replaceId, h, if_false, hasId_cons, ih, Bool.or_false, Bool.and_eq_false_imp,
      decide_eq_true_eq]
    intro hc
    have : ¬ (replaceId (d :: rest)).head? = some 'd' := by
      intro hd
      have := replaceId_head _ hd
      simp only [List.head?_cons, Option.some.injEq] at this
      exact h ⟨hc, this⟩
    simpa using this

theorem replaceId_of_not_hasId (l : List Char) (h : hasId l = false) : replaceId l = l := by
  induction l using replaceId.induct with
  | case1 => rfl
  | case2 c => rfl
  | case3 c d rest hcd ih =>
    obtain ⟨rfl, rfl⟩ := hcd
    simp [hasId] at h
  | case4 c d rest hcd ih =>
    have h2 : hasId (d :: rest) = false := by
      simp only [hasId, hcd, decide_False, Bool.false_or] at h
      exact h
    simp [replaceId, hcd, ih h2]

theorem stringsTitleGo_head (U : Unicode) (hU : U.Lawful) (p : Char) (l : List Char)
    (h : (stringsTitleGo U p l).head? = some 'd') : l.head? = some 'd' := by
  cases l with
  | nil => simp [stringsTitleGo] at h
  | cons r s =>
    simp only [stringsTitleGo, List.head?_cons, Option.some.injEq] at h ⊢
    by_cases hp : isSeparator U p = true
    · simp only [hp, if_true] at h
      exact absurd h (toTitle_ne_i_d U hU r).2
    · simpa [hp] using h

theorem hasId_stringsTitleGo (U : Unicode) (hU : U.Lawful) (p : Char) (l : List Char)
    (h : hasId l = false) : hasId (stringsTitleGo U p l) = false := by
  induction l generalizing p with
  | nil => rfl
  | cons r s ih =>
    rw [hasId_cons] at h
    simp only [Bool.or_eq_false_iff, Bool.and_eq_false_imp, decide_eq_true_eq] at h
    simp only [stringsTitleGo, hasId_cons, ih r h.2, Bool.or_false, Bool.and_eq_false_imp,
      decide_eq_true_eq]
    intro hi
    have hr : r = 'i' := by
      by_cases hp : isSeparator U p = true
      · simp only [hp, if_true] at hi
        exact absurd hi (toTitle_ne_i_d U hU r).1
      · simpa [hp] using hi
    have hne : ¬ (stringsTitleGo U r s).head? = some 'd' := by
      intro hd
      have := stringsTitleGo_head U hU r s hd
      have := h.1 hr
      simp_all
    simpa using hne

theorem stringsTitleGo_idem (U : Unicode) (hU : U.Lawful) (p q : Char) (l : List Char)
    (hpq : isSeparator U q = isSeparator U p) :
    stringsTitleGo U q (stringsTitleGo U p l) = stringsTitleGo U p l := by
  induction l generalizing p q with
  | nil => rfl
  | cons r s ih =>
    simp only [stringsTitleGo, hpq]
    by_cases hp : isSeparator U p = true
    · simp only [hp, if_true, toTitle_toTitle U hU]
      rw [ih r (toTitle U r) (isSeparator_toTitle U hU r)]
    · simp only [hp, Bool.false_eq_true, if_false]
      rw [ih r r rfl]

theorem asciiTables_lawful : asciiTables.Lawful where
  title_title := by
    intro c h
    simp [toTitle, asciiTables, Nat.not_le.mpr h]
  sep_title := by
    intro c h
    rfl
  title_ne_i := by
    intro c h hc
    simp only [asciiTables] at hc
    subst hc
    revert h
    decide
  title_ne_d := by
    intro c h hc
    simp only [asciiTables] at hc
    subst hc
    revert h
    decide

/-! ## Fields of an unsupported type -/

theorem handleFieldEach_unsupported (f : Field) (s : State) (h : supportedType f = false) :
    handleFieldEach f s = some s := by
  obtain ⟨ns, ty, tag⟩ := f
  cases tag with
  | none => simp [handleFieldEach, Field.Tag]
  | some tagLit =>
    cases ty <;> simp only [handleFieldEach, Field.Tag, Field.Typ, ite_self]
    rename_i name
    have hb : isBuiltIn name = false := by simpa [supportedType, Field.Typ] using h
    simp only [isBuiltIn, List.mem_cons, decide_eq_false_iff_not, not_or] at hb
    have hs : ¬ name = "string" := hb.1
    have hnum : ¬ name ∈ ["int", "int8", "int32", "int64", "uint", "uint32", "uint64",
        "uint8", "float32", "float64"] := by
      simp only [List.mem_cons, not_or]
      exact hb.2
    simp only [hs, hnum, if_false, ite_self]

theorem eligible_category (f : Field) (h : eligible f = true) :
    (categoryOf f.Typ = Category.textual ∧ ruleOf f = textualRule (f.Names.headD "")) ∨
    (categoryOf f.Typ = Category.numeric ∧ ruleOf f = numericRule (f.Names.headD "")) := by
  obtain ⟨ns, ty, tag⟩ := f
  simp only [eligible, Bool.and_eq_true] at h
  have hsup := h.2
  cases ty <;> simp [supportedType, Field.Typ] at hsup
  rename_i name
  by_cases hs : name = "string"
  · left
    simp [categoryOf, ruleOf, Field.Typ, hs]
  · right
    have hnum : name ∈ ["int", "int8", "int32", "int64", "uint", "uint32", "uint64",
        "uint8", "float32", "float64"] := by
      simp only [isBuiltIn, List.mem_cons, decide_eq_true_eq] at hsup
      rcases hsup with h1 | h2
      · exact absurd h1 hs
      · simpa using h2
    simp only [categoryOf, ruleOf, Field.Typ, hs, if_false, hnum, if_true, and_self]

/-! ## The output file name -/

theorem stringsReplaceGo_short (new : List Char) (l : List Char) (h : l.length < 3) :
    stringsReplaceGo ['.', 'g', 'o'] new 0 l = l := by
  match l, h with
  | [], _ => simp [stringsReplaceGo]
  | [c], _ => simp [stringsReplaceGo, List.isPrefixOf]
  | [c, d], _ => simp [stringsReplaceGo, List.isPrefixOf]

theorem stringsReplaceGo_dotGo (new : List Char) (l : List Char) :
    stringsReplaceGo ['.', 'g', 'o'] new 0 l = replaceDotGo new l := by
  induction l using replaceDotGo.induct new with
  | case1 c d e rest h ih =>
    obtain ⟨rfl, rfl, rfl⟩ := h
    simp [stringsReplaceGo, replaceDotGo, List.isPrefixOf, ih]
  | case2 c d e rest h ih =>
    have hp : ¬ List.isPrefixOf ['.', 'g', 'o'] (c :: d :: e :: rest) = true := by
      simp only [List.isPrefixOf, Bool.and_true, Bool.and_eq_true, beq_iff_eq]
      intro hcde
      exact h ⟨hcde.1.symm, hcde.2.1.symm, hcde.2.2.symm⟩
    rw [replaceDotGo, if_neg h, ← ih, stringsReplaceGo, if_neg hp]
  | case3 c d => exact stringsReplaceGo_short new [c, d] (by simp)
  | case4 c => exact stringsReplaceGo_short new [c] (by simp)
  | case5 => exact stringsReplaceGo_short new [] (by simp)

theorem replaceDotGo_suffix (new : List Char) (l : List Char) (h : ['.', 'g', 'o'] <:+ l) :
    new <:+ replaceDotGo new l := by
  induction l using replaceDotGo.induct new with
  | case1 c d e rest hm ih =>
    rw [replaceDotGo, if_pos hm]
    rcases List.suffix_cons_iff.mp h with h1 | h1
    · have hrest : rest = [] := by
        have := congrArg List.length h1
        simp only [List.length_cons, List.length_nil] at this
        exact List.eq_nil_of_length_eq_zero (by omega)
      subst hrest
      simp [replaceDotGo]
    · rcases List.suffix_cons_iff.mp h1 with h2 | h2
      · simp only [List.cons.injEq] at h2
        exact absurd (h2.1.trans hm.2.1) (by decide)
      · rcases List.suffix_cons_iff.mp h2 with h3 | h3
        · simp only [List.cons.injEq] at h3
          exact absurd (h3.1.trans hm.2.2) (by decide)
        · obtain ⟨t, ht⟩ := ih h3
          exact ⟨new ++ t, by rw [List.append_assoc, ht]⟩
  | case2 c d e rest hm ih =>
    rw [replaceDotGo, if_neg hm]
    rcases List.suffix_cons_iff.mp h with h1 | h1
    · simp only [List.cons.injEq] at h1
      exact absurd ⟨h1.1.symm, h1.2.1.symm, h1.2.2.1.symm⟩ hm
    · obtain ⟨t, ht⟩ := ih h1
      exact ⟨c :: t, by rw [List.cons_append, ht]⟩
  | case3 c d =>
    have := h.length_le
    simp at this
  | case4 c =>
    have := h.length_le
    simp at this
  | case5 =>
    have := h.length_le
    simp at this

theorem stringsReplace_go_hasSuffix (name : String) (h : stringsHasSuffix name ".go" = true) :
    stringsHasSuffix (stringsReplace name ".go" suffix) suffix = true := by
  have hdata : (".go" : String).data = ['.', 'g', 'o'] := rfl
  simp only [stringsHasSuffix, stringsReplace, hdata, List.isSuffixOf_iff_suffix] at h ⊢
  rw [stringsReplaceGo_dotGo]
  exact replaceDotGo_suffix _ _ h

/-! ## Paths that end in a plain file name -/

theorem stringsSplitGo_ne_nil (sep : Char) (l : List Char) : stringsSplitGo sep l ≠ [] := by
  induction l with
  | nil => simp [stringsSplitGo]
  | cons c rest ih =>
    simp only [stringsSplitGo]
    split
    · simp
    · split <;> simp

theorem stringsSplitGo_plain (sep : Char) (b : List Char) (h : sep ∉ b) :
    stringsSplitGo sep b = [b] := by
  induction b with
  | nil => rfl
  | cons c rest ih =>
    simp only [List.mem_cons, not_or] at h
    have hc : ¬ c = sep := fun e => h.1 e.symm
    simp [stringsSplitGo, hc, ih h.2]

theorem stringsSplitGo_append (sep : Char) (a b : List Char) :
    stringsSplitGo sep (a ++ sep :: b) = stringsSplitGo sep a ++ stringsSplitGo sep b := by
  induction a with
  | nil => simp [stringsSplitGo]
  | cons c rest ih =>
    by_cases hc : c = sep
    · simp [stringsSplitGo, hc, ih]
    · simp only [List.cons_append, stringsSplitGo, hc, if_false, List.append_eq]
      rw [ih]
      cases hsp : stringsSplitGo sep rest with
      | nil => exact absurd hsp (stringsSplitGo_ne_nil sep rest)
      | cons w ws => simp

theorem cleanElems_snoc (rooted : Bool) (b : List Char) (hb : plainName b)
    (xs : List (List Char)) (out : List (List Char)) :
    cleanElems rooted out (xs ++ [b]) = cleanElems rooted out xs ++ [b] := by
  obtain ⟨h1, _, h3, h4⟩ := hb
  induction xs generalizing out with
  | nil => simp [cleanElems, h1, h3, h4]
  | cons e rest ih =>
    simp only [List.cons_append, cleanElems]
    split
    · exact ih _
    · split
      · split
        · split
          · exact ih _
          · exact ih _
        · split
          · exact ih _
          · exact ih _
      · exact ih _

theorem intercalate_snoc (b : List Char) (ys : List (List Char)) :
    List.intercalate ['/'] (ys ++ [b])
      = if ys = [] then b else List.intercalate ['/'] ys ++ '/' :: b := by
  induction ys with
  | nil => simp [List.intercalate]
  | cons y rest ih =>
    cases rest with
    | nil => simp [List.intercalate]
    | cons z zs =>
      simp only [List.intercalate, List.cons_append, List.intersperse_cons₂, List.flatten_cons,
        reduceCtorEq, if_false, List.append_assoc] at ih ⊢
      rw [ih]

theorem pathCleanGo_plain_end (x b : List Char) (hb : plainName b)
    (hx : x = b ∨ ∃ a, x = a ++ '/' :: b) :
    pathCleanGo x = b ∨ ∃ p, pathCleanGo x = p ++ '/' :: b := by
  have hne : x ≠ [] := by
    rcases hx with rfl | ⟨a, rfl⟩
    · exact hb.1
    · simp
  have hsplit : ∃ xs, stringsSplitGo '/' x = xs ++ [b] := by
    rcases hx with rfl | ⟨a, rfl⟩
    · exact ⟨[], by simp [stringsSplitGo_plain '/' _ hb.2.1]⟩
    · exact ⟨stringsSplitGo '/' a, by
        rw [stringsSplitGo_append, stringsSplitGo_plain '/' _ hb.2.1]⟩
  obtain ⟨xs, hxs⟩ := hsplit
  simp only [pathCleanGo, hne, if_false, hxs, cleanElems_snoc _ b hb, intercalate_snoc]
  generalize cleanElems (decide (x.head? = some '/')) [] xs = ys
  have hb1 : b ≠ [] := hb.1
  by_cases hroot : x.head? = some '/'
  · by_cases hys : ys = []
    · simp only [hroot, hys, decide_True, if_true]
      exact Or.inr ⟨[], rfl⟩
    · simp only [hroot, hys, decide_True, if_true, if_false]
      exact Or.inr ⟨'/' :: List.intercalate ['/'] ys, rfl⟩
  · by_cases hys : ys = []
    · simp only [hroot, hys, decide_False, if_true, hb1, if_false, Bool.false_eq_true]
      exact Or.inl trivial
    · have hbody : List.intercalate ['/'] ys ++ '/' :: b ≠ [] := by simp
      simp only [hroot, hys, decide_False, hbody, if_false, Bool.false_eq_true]
      exact Or.inr ⟨_, rfl⟩

theorem pathBase_plain_end (r b : List Char) (hb : plainName b)
    (hr : r = b ∨ ∃ p, r = p ++ '/' :: b) : pathBase ⟨r⟩ = ⟨b⟩ := by
  obtain ⟨hne, hslash, _, _⟩ := hb
  have hrne : r ≠ [] := by
    rcases hr with rfl | ⟨p, rfl⟩
    · exact hne
    · simp
  have hrev : ∃ q, r.reverse = b.reverse ++ q ∧ (q = [] ∨ ∃ q2, q = '/' :: q2) := by
    rcases hr with rfl | ⟨p, rfl⟩
    · exact ⟨[], by simp, Or.inl rfl⟩
    · exact ⟨'/' :: p.reverse, by simp, Or.inr ⟨_, rfl⟩⟩
  obtain ⟨q, hq, hq2⟩ := hrev
  have hbrev : ∀ c ∈ b.reverse, (c != '/') = true := by
    intro c hc
    simp only [List.mem_reverse] at hc
    simp only [bne_iff_ne, ne_eq]
    rintro rfl
    exact hslash hc
  obtain ⟨c, cs, hcs⟩ := List.exists_cons_of_ne_nil (by simpa using hne : b.reverse ≠ [])
  have hcne : ¬ (c == '/') = true := by
    have := hbrev c (by simp [hcs])
    simpa using this
  have hdrop : (r.reverse.dropWhile (· == '/')) = b.reverse ++ q := by
    rw [hq, hcs, List.cons_append, List.dropWhile_cons_of_neg (p := fun x => x == '/') hcne]
  have htakeq : q.takeWhile (· != '/') = [] := by
    rcases hq2 with rfl | ⟨q2, rfl⟩ <;> simp
  have htake : (b.reverse ++ q).takeWhile (· != '/') = b.reverse := by
    rw [List.takeWhile_append_of_pos hbrev, htakeq, List.append_nil]
  simp only [pathBase, hrne, if_false, hdrop, htake, List.reverse_reverse, hne]

theorem pathBase_pathJoin (a b : String) (hb : plainName b.data) :
    pathBase (pathJoin a b) = b := by
  have hbne : b.data ≠ [] := hb.1
  have key : ∀ x, (x = b.data ∨ ∃ p, x = p ++ '/' :: b.data) → pathBase ⟨pathCleanGo x⟩ = b :=
    fun x hx => pathBase_plain_end _ _ hb (pathCleanGo_plain_end x b.data hb hx)
  simp only [pathJoin, hbne, and_false, if_false]
  split
  · exact key _ (Or.inl rfl)
  · exact key _ (Or.inr ⟨_, rfl⟩)

theorem replaceDotGo_no_slash (new : List Char) (l : List Char) (hn : '/' ∉ new)
    (hl : '/' ∉ l) : '/' ∉ replaceDotGo new l := by
  induction l using replaceDotGo.induct new with
  | case1 c d e rest hm ih =>
    rw [replaceDotGo, if_pos hm]
    simp only [List.mem_cons, not_or] at hl
    simp only [List.mem_append, not_or]
    exact ⟨hn, ih hl.2.2.2⟩
  | case2 c d e rest hm ih =>
    rw [replaceDotGo, if_neg hm]
    simp only [List.mem_cons, not_or] at hl ⊢
    exact ⟨hl.1, by simpa using ih (by simpa using hl.2)⟩
  | case3 c d => simpa [replaceDotGo] using hl
  | case4 c => simpa [replaceDotGo] using hl
  | case5 => simp [replaceDotGo]

theorem stringsReplace_go_plain (name : String) (hgo : stringsHasSuffix name ".go" = true)
    (hplain : plainName name.data) : plainName (stringsReplace name ".go" suffix).data := by
  have hsuf := stringsReplace_go_hasSuffix name hgo
  simp only [stringsHasSuffix, List.isSuffixOf_iff_suffix] at hsuf
  have hlen := hsuf.length_le
  have hslen : suffix.data.length = 13 := by decide
  rw [hslen] at hlen
  have hdata : (".go" : String).data = ['.', 'g', 'o'] := rfl
  refine ⟨?_, ?_, ?_, ?_⟩
  · intro h
    rw [h] at hlen
    simp at hlen
  · simp only [stringsReplace, hdata]
    rw [stringsReplaceGo_dotGo]
    exact replaceDotGo_no_slash _ _ (by decide) hplain.2.1
  · intro h
    rw [h] at hlen
    simp at hlen
  · intro h
    rw [h] at hlen
    simp at hlen

/-! ## Names that end in `id` -/

theorem replaceId_suffix (l : List Char) (h : ['i', 'd'] <:+ l) :
    ['I', 'D'] <:+ replaceId l := by
  induction l using replaceId.induct with
  | case1 =>
    have := h.length_le
    simp at this
  | case2 c =>
    have := h.length_le
    simp at this
  | case3 c d rest hm ih =>
    rw [replaceId, if_pos hm]
    rcases List.suffix_cons_iff.mp h with h1 | h1
    · have hrest : rest = [] := by
        have := congrArg List.length h1
        simp only [List.length_cons, List.length_nil] at this
        exact List.eq_nil_of_length_eq_zero (by omega)
      subst hrest
      simp [replaceId]
    · rcases List.suffix_cons_iff.mp h1 with h2 | h2
      · simp only [List.cons.injEq] at h2
        exact absurd (h2.1.trans hm.2) (by decide)
      · obtain ⟨t, ht⟩ := ih h2
        exact ⟨'I' :: 'D' :: t, by simp [ht]⟩
  | case4 c d rest hm ih =>
    rw [replaceId, if_neg hm]
    rcases List.suffix_cons_iff.mp h with h1 | h1
    · simp only [List.cons.injEq] at h1
      exact absurd ⟨h1.1.symm, h1.2.1.symm⟩ hm
    · obtain ⟨t, ht⟩ := ih h1
      exact ⟨c :: t, by rw [List.cons_append, ht]⟩

theorem stringsTitleGo_suffix_ID (U : Unicode) (p : Char) (l : List Char)
    (h : ['I', 'D'] <:+ l) : ['I', 'D'] <:+ stringsTitleGo U p l := by
  have hI : toTitle U 'I' = 'I' := by
    rw [toTitle_ascii U 'I' (by decide)]
    decide
  have hD : toTitle U 'D' = 'D' := by
    rw [toTitle_ascii U 'D' (by decide)]
    decide
  induction l generalizing p with
  | nil =>
    have := h.length_le
    simp at this
  | cons x rest ih =>
    rcases List.suffix_cons_iff.mp h with h1 | h1
    · simp only [List.cons.injEq] at h1
      obtain ⟨rfl, rfl⟩ := h1
      simp only [stringsTitleGo, hI, hD, ite_self]
      exact List.suffix_rfl
    · obtain ⟨t, ht⟩ := ih x h1
      exact ⟨(if isSeparator U p then toTitle U x else x) :: t, by
        simp only [stringsTitleGo, List.cons_append, ht]⟩

theorem hasId_title (U : Unicode) (hU : U.Lawful) (s : String) :
    hasId (title U s).data = false := by
  have hid : ∀ l, stringsReplaceGo "id".data "ID".data 0 l = replaceId l := stringsReplaceGo_id
  simp only [title, stringsTitle, stringsReplace, hid]
  exact hasId_stringsTitleGo U hU _ _ (hasId_replaceId _)

theorem title_suffix_ID (U : Unicode) (s : String) (h : stringsHasSuffix s "id" = true) :
    stringsHasSuffix (title U s) "ID" = true := by
  have hid : ∀ l, stringsReplaceGo "id".data "ID".data 0 l = replaceId l := stringsReplaceGo_id
  have h1 : ("id" : String).data = ['i', 'd'] := rfl
  have h2 : ("ID" : String).data = ['I', 'D'] := rfl
  simp only [stringsHasSuffix, h1, List.isSuffixOf_iff_suffix] at h
  simp only [stringsHasSuffix, title, stringsTitle, stringsReplace, hid, h2,
    List.isSuffixOf_iff_suffix]
  exact stringsTitleGo_suffix_ID U _ _ (replaceId_suffix _ h)

theorem GoFunc.text_eq_name (g : GoFunc) :
    g.text = "\n// " ++ g.name ++ " Validate " ++ g.subject ++ "\nfunc " ++ g.name
      ++ "(src " ++ g.param ++ ") error \x7b\n" ++ stmtsText g.body ++ "\x7d\n" := by
  have h1 : ("\n// Validate" : String) = "\n// " ++ "Validate" := by decide
  have h2 : ("\nfunc Validate" : String) = "\nfunc " ++ "Validate" := by decide
  simp only [GoFunc.text, GoFunc.name, h1, h2, String.append_assoc]

/-! ## Directory mode does not overwrite its input -/

theorem dirMode_output_differs (dir name : String) (hplain : plainName name.data)
    (hgo : stringsHasSuffix name ".go" = true) (hnot : stringsHasSuffix name suffix = false) :
    fullPathOf "" (pathJoin dir name) ≠ pathJoin dir name := by
  intro h
  have hbase := pathBase_pathJoin dir name hplain
  have hout : pathBase (fullPathOf "" (pathJoin dir name)) = stringsReplace name ".go" suffix := by
    simp only [fullPathOf, hbase, if_true]
    exact pathBase_pathJoin _ _ (stringsReplace_go_plain name hgo hplain)
  rw [h, hbase] at hout
  have hsuf := stringsReplace_go_hasSuffix name hgo
  rw [← hout, hnot] at hsuf
  cases hsuf

/-! ## The rule list and the buffer during the walk of `handleFile` -/

theorem handleStruct_buf (U : Unicode) (name : String) (typ : Expr) (s s2 : State)
    (h : handleStruct U name typ s = some s2) : ∃ t, s2.curBuf = s.curBuf ++ t := by
  unfold handleStruct at h
  repeat' split at h
  all_goals first
    | (cases h; exact ⟨"", by simp⟩)
    | (simp only [Option.map_eq_some'] at h
       obtain ⟨s1, h1, rfl⟩ := h
       have a := handleField_frame _ _ _ h1
       exact ⟨renderTpl U { Name := s1.curStruct, Fields := s1.curFields }, by
         simp only [execTpl, a.1]⟩)

theorem walkSpecs_invariant (U : Unicode) (specs : List Spec) (s s2 : State)
    (hF : s.curFields = []) (h : walkSpecs U specs s = some s2) :
    s2.curFields = [] ∧ ∃ t, s2.curBuf = s.curBuf ++ t := by
  induction specs generalizing s with
  | nil =>
    simp only [walkSpecs, Option.some.injEq] at h
    subst h
    exact ⟨hF, "", by simp⟩
  | cons sp rest ih =>
    cases sp with
    | TypeSpec name typ =>
      simp only [walkSpecs, Option.bind_eq_some] at h
      obtain ⟨s1, h1, h2⟩ := h
      obtain ⟨t1, ht1⟩ := handleStruct_buf U name typ s s1 h1
      obtain ⟨hc, t2, ht2⟩ := ih (reset s1) rfl h2
      refine ⟨hc, t1 ++ t2, ?_⟩
      simp only [reset] at ht2
      rw [ht2, ht1, String.append_assoc]
    | ImportSpec => exact ih s hF (by simpa [walkSpecs] using h)
    | ValueSpec => exact ih s hF (by simpa [walkSpecs] using h)

theorem walkDecls_invariant (U : Unicode) (decls : List Decl) (s s2 : State)
    (hF : s.curFields = []) (h : walkDecls U decls s = some s2) :
    s2.curFields = [] ∧ ∃ t, s2.curBuf = s.curBuf ++ t := by
  induction decls generalizing s with
  | nil =>
    simp only [walkDecls, Option.some.injEq] at h
    subst h
    exact ⟨hF, "", by simp⟩
  | cons d rest ih =>
    cases d with
    | GenDecl tok specs =>
      simp only [walkDecls] at h
      split at h
      · exact ih s hF h
      · simp only [Option.bind_eq_some] at h
        obtain ⟨s1, h1, h2⟩ := h
        obtain ⟨hc1, t1, ht1⟩ := walkSpecs_invariant U specs s s1 hF h1
        obtain ⟨hc, t2, ht2⟩ := ih s1 hc1 h2
        exact ⟨hc, t1 ++ t2, by rw [ht2, ht1, String.append_assoc]⟩
    | FuncDecl => exact ih s hF (by simpa [walkDecls] using h)
    | BadDecl => exact ih s hF (by simpa [walkDecls] using h)

theorem structEntriesSpecs_clean (U : Unicode) (specs : List Spec) (s : State)
    (hF : s.curFields = []) : ∀ e ∈ structEntriesSpecs U specs s, e.curFields = [] := by
  induction specs generalizing s with
  | nil => simp [structEntriesSpecs]
  | cons sp rest ih =>
    cases sp with
    | TypeSpec name typ =>
      intro e he
      simp only [structEntriesSpecs, List.mem_cons] at he
      rcases he with rfl | he
      · exact hF
      · cases hs : handleStruct U name typ s with
        | none => simp [hs] at he
        | some s1 =>
          rw [hs] at he
          exact ih (reset s1) rfl e he
    | ImportSpec => simpa [structEntriesSpecs] using ih s hF
    | ValueSpec => simpa [structEntriesSpecs] using ih s hF

theorem structEntriesDecls_clean (U : Unicode) (decls : List Decl) (s : State)
    (hF : s.curFields = []) : ∀ e ∈ structEntriesDecls U decls s, e.curFields = [] := by
  induction decls generalizing s with
  | nil => simp [structEntriesDecls]
  | cons d rest ih =>
    cases d with
    | GenDecl tok specs =>
      intro e he
      simp only [structEntriesDecls] at he
      split at he
      · exact ih s hF e he
      · simp only [List.mem_append] at he
        rcases he with he | he
        · exact structEntriesSpecs_clean U specs s hF e he
        · cases hw : walkSpecs U specs s with
          | none => simp [hw] at he
          | some s1 =>
            rw [hw] at he
            exact ih s1 (walkSpecs_invariant U specs s s1 hF hw).1 e he
    | FuncDecl => simpa [structEntriesDecls] using ih s hF
    | BadDecl => simpa [structEntriesDecls] using ih s hF

theorem handleStruct_run (U : Unicode) (name : String) (fields : List Field) (s : State)
    (hne : fields ≠ []) (hnames : ∀ f ∈ fields, f.Names ≠ []) :
    handleStruct U name (Expr.StructType (some fields)) s
      = some (execTpl U { ({ s with curStruct := name } : State) with
          curFields := s.curFields ++ (fields.filter eligible).map ruleOf }) := by
  have hlen : fields.length ≠ 0 := by simpa using hne
  have hf := handleField_spec fields { s with curStruct := name } hnames
  simp only [handleStruct, hlen, if_false, hf, Option.map_some']

theorem handleStruct_total (U : Unicode) (name : String) (typ : Expr) (s : State)
    (hn : typ.named) : ∃ s2, handleStruct U name typ s = some s2 := by
  cases typ with
  | StructType fields =>
    cases fields with
    | none => exact ⟨s, by simp [handleStruct]⟩
    | some list =>
      by_cases hl : list = []
      · exact ⟨s, by simp [handleStruct, hl]⟩
      · exact ⟨_, handleStruct_run U name list s hl hn⟩
  | _ => exact ⟨s, by simp [handleStruct]⟩

theorem walkSpecs_total (U : Unicode) (specs : List Spec) (s : State)
    (hn : ∀ sp ∈ specs, sp.named) : ∃ s2, walkSpecs U specs s = some s2 := by
  induction specs generalizing s with
  | nil => exact ⟨s, rfl⟩
  | cons sp rest ih =>
    have hrest : ∀ x ∈ rest, x.named := fun x hx => hn x (List.mem_cons_of_mem _ hx)
    cases sp with
    | TypeSpec name typ =>
      obtain ⟨s1, h1⟩ := handleStruct_total U name typ s (hn _ (List.mem_cons_self _ _))
      obtain ⟨s2, h2⟩ := ih (reset s1) hrest
      exact ⟨s2, by simp [walkSpecs, h1, h2]⟩
    | ImportSpec => simpa [walkSpecs] using ih s hrest
    | ValueSpec => simpa [walkSpecs] using ih s hrest

theorem walkDecls_total (U : Unicode) (decls : List Decl) (s : State)
    (hn : ∀ d ∈ decls, d.named) : ∃ s2, walkDecls U decls s = some s2 := by
  induction decls generalizing s with
  | nil => exact ⟨s, rfl⟩
  | cons d rest ih =>
    have hrest : ∀ x ∈ rest, x.named := fun x hx => hn x (List.mem_cons_of_mem _ hx)
    cases d with
    | GenDecl tok specs =>
      by_cases ht : tok = Token.IMPORT
      · simpa [walkDecls, ht] using ih s hrest
      · obtain ⟨s1, h1⟩ := walkSpecs_total U specs s (hn _ (List.mem_cons_self _ _))
        obtain ⟨s2, h2⟩ := ih s1 hrest
        exact ⟨s2, by simp [walkDecls, ht, h1, h2]⟩
    | FuncDecl => simpa [walkDecls] using ih s hrest
    | BadDecl => simpa [walkDecls] using ih s hrest

theorem handleStruct_own_rules (U : Unicode) (name : String) (fields : List Field) (s : State)
    (hne : fields ≠ []) (hnames : ∀ f ∈ fields, f.Names ≠ []) (hF : s.curFields = []) :
    ∃ s2, handleStruct U name (Expr.StructType (some fields)) s = some s2 ∧
      s2.curFields = (fields.filter eligible).map ruleOf := by
  refine ⟨_, handleStruct_run U name fields s hne hnames, ?_⟩
  simp [execTpl, hF]

/-! ## The rules of the fields that the code takes as eligible -/

/-- For a struct type whose field declarations each declare one name,
`handleField` started with an empty `curFields` succeeds and leaves in `curFields`
exactly one rule per field that the code takes as eligible (`eligible`: the
tag as `handleField` reads it, the type names that `isBuiltIn` accepts); the
rules are those of these fields in declaration order. -/
theorem handleField_rules_in_declaration_order (fields : List Field) (s : State)
    (hnames : ∀ f ∈ fields, f.Names.length = 1) (hempty : s.curFields = []) :
    ∃ s', handleField fields s = some s' ∧
      s'.curFields = (fields.filter eligible).map ruleOf ∧
      s'.curFields.length = fields.countP eligible := by
  refine ⟨_, handleField_spec fields s (names_ne_nil_of_length_one hnames), ?_, ?_⟩
  · simp [hempty]
  · simp [hempty, List.countP_eq_length_filter]

set_option maxRecDepth 20000 in
/-- For the struct `widgetFields` the two rules are those of `Name` and
`Value`, in this order. -/
theorem handleField_rules_widget :
    (∀ f ∈ widgetFields, f.Names.length = 1) ∧
      (widgetFields.filter eligible).map ruleOf = [textualRule "Name", numericRule "Value"] ∧
      ∃ s2, handleField widgetFields (State.init false) = some s2 ∧
        s2.curFields = (widgetFields.filter eligible).map ruleOf ∧
        s2.curFields.length = widgetFields.countP eligible := by
  exact ⟨by decide, by decide,
    handleField_rules_in_declaration_order widgetFields (State.init false) (by decide) rfl⟩

set_option maxRecDepth 20000 in
/-- For a field that declares a name and whose type name `isBuiltIn` accepts,
`handleField` appends the rule of the field when the first marker of the `validator` tag
value is `required` (as for the values `required` and `required,x`), and
returns with the state unchanged, without a rule and without a panic, when the
field has no tag, when the tag has no `validator` key, when the value is empty
and when the first marker is anything else, as for `x,required`, `Required`
and ` required`. -/
theorem handleField_rule_iff_first_marker (f : Field) (s : State)
    (hsup : supportedType f = true) (hn : f.Names ≠ []) :
    (∀ tagLit, (tagValuesOf tagLit).head? = some "required" →
      handleField [f.withTag tagLit] s
        = some { s with curFields := s.curFields ++ [ruleOf f] }) ∧
    (∀ tagLit, (tagValuesOf tagLit).head? ≠ some "required" →
      handleField [f.withTag tagLit] s = some s) ∧
    handleField [Field.mk f.Names f.Typ none] s = some s ∧
    (∀ tagLit ∈ ["`validator:\"required\"`", "`validator:\"required,x\"`",
        "`json:\"a\" validator:\"required\"`"],
      handleField [f.withTag tagLit] s
        = some { s with curFields := s.curFields ++ [ruleOf f] }) ∧
    (∀ tagLit ∈ ["`json:\"a\"`", "`validator:\"\"`", "`validator:\"x,required\"`",
        "`validator:\"Required\"`", "`validator:\" required\"`", "``"],
      handleField [f.withTag tagLit] s = some s) := by
  have hyes : ∀ tagLit, (tagValuesOf tagLit).head? = some "required" →
      handleField [f.withTag tagLit] s
        = some { s with curFields := s.curFields ++ [ruleOf f] } := by
    intro tagLit h
    have hel : eligible (f.withTag tagLit) = true := by
      obtain ⟨ns, ty, tag⟩ := f
      simpa [eligible, requiredMarker, supportedType, Field.withTag, Field.Tag, Field.Typ, h]
        using hsup
    have hr : ruleOf (f.withTag tagLit) = ruleOf f := by
      obtain ⟨ns, ty, tag⟩ := f
      rfl
    have := handleFieldEach_spec (f.withTag tagLit) s (by
      obtain ⟨ns, ty, tag⟩ := f
      simpa [Field.withTag, Field.Names] using hn)
    simp [handleField, this, hel, hr]
  have hno : ∀ tagLit, (tagValuesOf tagLit).head? ≠ some "required" →
      handleField [f.withTag tagLit] s = some s := by
    intro tagLit h
    have := handleFieldEach_not_required (f.withTag tagLit) s (by
      simpa [requiredMarker, Field.withTag, Field.Tag] using h)
    simp [handleField, this]
  refine ⟨hyes, hno, ?_, ?_, ?_⟩
  · have := handleFieldEach_not_required (Field.mk f.Names f.Typ none) s rfl
    simp [handleField, this]
  · intro tagLit hmem
    simp only [List.mem_cons, List.mem_singleton, List.not_mem_nil, or_false] at hmem
    rcases hmem with rfl | rfl | rfl <;> exact hyes _ (by decide)
  · intro tagLit hmem
    simp only [List.mem_cons, List.mem_singleton, List.not_mem_nil, or_false] at hmem
    rcases hmem with rfl | rfl | rfl | rfl | rfl | rfl <;> exact hno _ (by decide)

set_option maxRecDepth 20000 in
/-- The field `Name string` with the tag values `required,x` and `x,required`. -/
theorem handleField_rule_iff_first_marker_name :
    handleField [Field.mk ["Name"] (Expr.Ident "string") (some "`validator:\"required,x\"`")]
        (State.init false)
      = some { State.init false with curFields := [textualRule "Name"] } ∧
    handleField [Field.mk ["Name"] (Expr.Ident "string") (some "`validator:\"x,required\"`")]
        (State.init false)
      = some (State.init false) := by
  have h := handleField_rule_iff_first_marker
    (Field.mk ["Name"] (Expr.Ident "string") none) (State.init false) (by decide)
    (by simp [Field.Names])
  exact ⟨h.1 _ (by decide), h.2.1 _ (by decide)⟩

/-! ## The tag reader on sample tags -/

set_option maxRecDepth 40000 in
/-- The value of the key `validator` in sample tags: the key is selected by its
name among several pairs, a missing key and a malformed tag give the empty
string, and escape sequences of the quoted value are decoded. -/
theorem structTagGet_samples :
    structTagGet "json:\"required\" validator:\"x\"" "validator" = "x" ∧
    structTagGet "json:\"required\"" "validator" = "" ∧
    structTagGet "validator:\"a,b\" json:\"c\"" "json" = "c" ∧
    structTagGet "validator:\"req\\x75ired\"" "validator" = "required" ∧
    structTagGet "validator:\"re\\161uired\"" "validator" = "required" ∧
    structTagGet "validator:\"a\\\"b\"" "validator" = "a\"b" ∧
    structTagGet "validator:\"a\\qb\"" "validator" = "" ∧
    structTagGet "validator:required" "validator" = "" ∧
    structTagGet "validator: \"required\"" "validator" = "" ∧
    structTagGet "  validator:\"required\"" "validator" = "required" := by
  decide

/-! ## Claims -/

set_option maxRecDepth 40000 in
/-- C1 (failing input): the struct type `Inventory` declares five fields with
one name each, of which three carry the required marker first on a textual or
numeric type, in the order `Name`, `Count`, `Value`; `handleField`, started
with an empty `curFields`, produces two rules, those of `Name` and `Value`:
the field `Count int16` is counted by the claim and gets no rule. -/
theorem C1_int16_field_is_counted_without_rule :
    (∀ f ∈ inventoryFields.map FieldAnnotation.toField, f.Names.length = 1) ∧
    inventoryFields.countP specRequired = 3 ∧
    (inventoryFields.filter specRequired).map (·.name) = ["Name", "Count", "Value"] ∧
    handleField (inventoryFields.map FieldAnnotation.toField) (State.init false)
      = some { State.init false with curFields := [textualRule "Name", numericRule "Value"] } := by
  decide

set_option maxRecDepth 20000 in
/-- C2 (failing input): a field `A int16` or `A uint16` whose tag is
`validator:"required"` yields no rule: `handleField` leaves the state
unchanged, and `isBuiltIn` rejects both type names. -/
theorem C2_int16_uint16_yield_no_rule :
    handleField [Field.mk ["A"] (Expr.Ident "int16") (some requiredTag)] (State.init false)
        = some (State.init false) ∧
      handleField [Field.mk ["A"] (Expr.Ident "uint16") (some requiredTag)] (State.init false)
        = some (State.init false) ∧
      isBuiltIn "int16" = false ∧ isBuiltIn "uint16" = false := by
  decide

set_option maxRecDepth 20000 in
/-- C3 (failing input): for a unit of package `p` without any declaration the
render buffer holds the header when the write is decided, and `handleFile`
writes a file that consists of the header alone. -/
theorem C3_unit_without_rules_is_written :
    (handleFileWalked asciiTables "p/a.go" ⟨"p", []⟩ stateP).map (·.curBuf)
        = some "package p\n\timport(\n\t\t\"errors\"\n\t)" ∧
      (handleFile asciiTables "p/a.go" ⟨"p", []⟩ stateP).map (·.written)
        = some [("p/a_validator.go", "package p\n\timport(\n\t\t\"errors\"\n\t)")] := by
  decide

set_option maxRecDepth 100000 in
/-- C4 as stated fails: the struct `T` with the single field `Flag bool` yields
zero rules, and `handleStruct` still appends the two functions to the render
buffer. -/
theorem C4_counterexample :
    (handleStruct asciiTables "T" flagStruct (State.init false)).map
        (fun s => (s.curFields, s.curBuf))
      = some ([], "\n// ValidateT Validate T\nfunc ValidateT(src T) error \x7b\n\n\treturn nil\n\x7d\n"
          ++ "\n\n// ValidateTPointer Validate TPointer\nfunc ValidateTPointer(src *T) error \x7b\n"
          ++ "\tif src == nil \x7b\n\t\treturn errors.New(\"src can't be nil\")\n\t\x7d\n"
          ++ "\n\treturn nil\n\x7d\n") := by
  decide

/-- C4 (amended): for a struct type with at least one field, all of whose
field declarations declare a name, `handleStruct` appends one section to the
render buffer, the value validator followed by the reference validator rendered
for the rules of its fields, whether or not there is any rule; nothing is
appended for a struct type without fields. -/
theorem C4_handleStruct_appends_section (U : Unicode) (name : String) (fields : List Field)
    (s : State) (hne : fields ≠ []) (hnames : ∀ f ∈ fields, f.Names ≠ [])
    (hempty : s.curFields = []) :
    (∃ s2, handleStruct U name (Expr.StructType (some fields)) s = some s2 ∧
      s2.curFields = (fields.filter eligible).map ruleOf ∧
      s2.curBuf = s.curBuf ++
        (renderValue U ⟨name, s2.curFields⟩ ++ renderPointer U ⟨name, s2.curFields⟩) ∧
      s2.curBuf ≠ s.curBuf) ∧
    handleStruct U name (Expr.StructType (some [])) s = some s ∧
    handleStruct U name (Expr.StructType none) s = some s := by
  refine ⟨?_, by simp [handleStruct], by simp [handleStruct]⟩
  have hlen : fields.length ≠ 0 := by simpa using hne
  have hf := handleField_spec fields { s with curStruct := name } hnames
  have hs : handleStruct U name (Expr.StructType (some fields)) s
      = some (execTpl U { ({ s with curStruct := name } : State) with
          curFields := s.curFields ++ (fields.filter eligible).map ruleOf }) := by
    simp only [handleStruct, hlen, if_false, hf, Option.map_some']
  refine ⟨_, hs, ?_, ?_, ?_⟩
  · simp [execTpl, hempty]
  · simp [execTpl, renderTpl, hempty]
  · intro h
    have h2 := congrArg String.length h
    simp only [execTpl, renderTpl, renderValue, String.length_append] at h2
    have h3 : ("\n// Validate" : String).length = 12 := by decide
    omega

/-- C4 (amended) at the struct `T` with the single field `Flag bool`. -/
theorem C4_witness :
    ∃ s2, handleStruct asciiTables "T" flagStruct (State.init false) = some s2 ∧
      s2.curFields = [] ∧ s2.curBuf ≠ (State.init false).curBuf := by
  have h := (C4_handleStruct_appends_section asciiTables "T"
    [Field.mk ["Flag"] (Expr.Ident "bool") (some requiredTag)] (State.init false)
    (by simp) (by simp [Field.Names]) rfl).1
  obtain ⟨s2, h1, h2, _, h4⟩ := h
  refine ⟨s2, h1, ?_, h4⟩
  rw [h2]
  decide

set_option maxRecDepth 20000 in
/-- C5 (failing input): with the recursion flag unset, directory mode on the
directory `proj` that holds `a.go` hands no file to `handleFile` and writes
nothing, because the walk function skips the root directory itself; with the
flag set the same tree hands over `proj/a.go`. -/
theorem C5_flat_walk_hands_over_nothing :
    (handleDirMode asciiTables (some "p") "proj" flatTree (State.init false)).map
        (fun r => (r.1.handed, r.1.written, r.2)) = some ([], [], false) ∧
      (handleDirMode asciiTables (some "p") "proj" flatTree (State.init true)).map
        (fun r => (r.1.handed, r.2)) = some (["proj/a.go"], false) := by
  decide

set_option maxRecDepth 20000 in
/-- C6: for every rule list and every struct value on which the predicates of
the rules are well typed, the text rendered by the first half of the template is
the text of the value validator, and the value validator returns the error
expression of the first rule, in order, whose emptiness predicate holds, and nil
exactly when the predicate of no rule holds. A string field is empty exactly when it
equals the empty string and a numeric field exactly when it equals zero. For the
rules of `Name` and `Value` the three values of the scenario give the `Name`
error, the `Value` error and nil. -/
theorem C6_value_validator_first_failure (U : Unicode) (name : String) (rules : List field)
    (v : StructValue) (htyped : ∀ f ∈ rules, (evalIsEmpty v f.IsEmpty).isSome = true) :
    renderValue U ⟨name, rules⟩ = (valueValidator U ⟨name, rules⟩).text ∧
    (valueValidator U ⟨name, rules⟩).call (some v)
      = some ((rules.find? fun f => evalIsEmpty v f.IsEmpty == some true).map (·.Error)) ∧
    ((valueValidator U ⟨name, rules⟩).call (some v) = some none ↔
      ∀ f ∈ rules, evalIsEmpty v f.IsEmpty = some false) ∧
    (∀ F x, evalIsEmpty [(F, GoValue.str x)] (textualRule F).IsEmpty = some (x == "")) ∧
    (∀ F n, evalIsEmpty [(F, GoValue.num n)] (numericRule F).IsEmpty = some (n == 0)) ∧
    (valueValidator U ⟨"Widget", widgetRules⟩).call
        (some [("Name", GoValue.str ""), ("Value", GoValue.num 5)])
      = some (some "errors.New(\"field Name can't be empty\")") ∧
    (valueValidator U ⟨"Widget", widgetRules⟩).call
        (some [("Name", GoValue.str "x"), ("Value", GoValue.num 0)])
      = some (some "errors.New(\"field Value can't be empty\")") ∧
    (valueValidator U ⟨"Widget", widgetRules⟩).call
        (some [("Name", GoValue.str "x"), ("Value", GoValue.num 5)]) = some none ∧
    (valueValidator U ⟨"Widget", widgetRules⟩).call
        (some [("Name", GoValue.str " "), ("Value", GoValue.num (-5))]) = some none := by
  have hcall : (valueValidator U ⟨name, rules⟩).call (some v)
      = some ((rules.find? fun f => evalIsEmpty v f.IsEmpty == some true).map (·.Error)) :=
    execStmts_checks v rules htyped
  refine ⟨renderValue_eq_text U _, hcall, ?_, ?_, ?_, ?_, ?_, ?_, ?_⟩
  · rw [hcall]
    simp only [Option.some.injEq, Option.map_eq_none', List.find?_eq_none, beq_iff_eq]
    constructor
    · intro h f hf
      exact (evalIsEmpty_bool_cases v _ (htyped f hf)).mp (h f hf)
    · intro h f hf
      exact (evalIsEmpty_bool_cases v _ (htyped f hf)).mpr (h f hf)
  · intro F x
    simp [evalIsEmpty, textualRule]
  · intro F n
    simp [evalIsEmpty, numericRule]
  · show execStmts _ (checkStmts widgetRules ++ [Stmt.returnNil]) = _
    decide
  · show execStmts _ (checkStmts widgetRules ++ [Stmt.returnNil]) = _
    decide
  · show execStmts _ (checkStmts widgetRules ++ [Stmt.returnNil]) = _
    decide
  · show execStmts _ (checkStmts widgetRules ++ [Stmt.returnNil]) = _
    decide

set_option maxRecDepth 20000 in
/-- C6 at the rules of `Name` and `Value` and the value with an empty `Name`. -/
theorem C6_witness :
    (valueValidator asciiTables ⟨"Widget", widgetRules⟩).call
        (some [("Name", GoValue.str ""), ("Value", GoValue.num 5)])
      = some ((widgetRules.find? fun f =>
          evalIsEmpty [("Name", GoValue.str ""), ("Value", GoValue.num 5)] f.IsEmpty
            == some true).map (·.Error)) :=
  (C6_value_validator_first_failure asciiTables "Widget" widgetRules
    [("Name", GoValue.str ""), ("Value", GoValue.num 5)] (by decide)).2.1

/-- C7: for every rule list, the second half of the template renders the text
of the reference validator, whose body is the nil check followed by the body of
the value validator: called with a nil reference it returns the error
`src can't be nil` whatever the rules are, and called with any other reference
it returns what the value validator returns for the referenced value. -/
theorem C7_pointer_validator_is_nil_check_then_value (U : Unicode) (name : String)
    (rules : List field) :
    renderPointer U ⟨name, rules⟩ = "\n" ++ (pointerValidator U ⟨name, rules⟩).text ∧
    (pointerValidator U ⟨name, rules⟩).body
      = Stmt.ifNilReturn "errors.New(\"src can't be nil\")"
          :: (valueValidator U ⟨name, rules⟩).body ∧
    (pointerValidator U ⟨name, rules⟩).call none
      = some (some "errors.New(\"src can't be nil\")") ∧
    (∀ v, (pointerValidator U ⟨name, rules⟩).call (some v)
      = (valueValidator U ⟨name, rules⟩).call (some v)) ∧
    (∀ src, (pointerValidator U ⟨name, rules⟩).call src
      = nilCheckThen (fun v => (valueValidator U ⟨name, rules⟩).call (some v)) src) := by
  refine ⟨renderPointer_eq_text U _, rfl, rfl, fun v => rfl, ?_⟩
  intro src
  cases src <;> rfl

set_option maxRecDepth 20000 in
/-- C8 (failing input): for the source unit `pkg/a.go.go`, whose file name is
the stem `a.go` followed by `.go`, the output path is
`pkg/a_validator.go_validator.go`; replacing the trailing `.go` alone gives
`pkg/a.go_validator.go`. -/
theorem C8_inner_go_is_replaced_too :
    (handleFile asciiTables "pkg/a.go.go" ⟨"p", []⟩ stateP).map
        (fun s => s.written.map Prod.fst) = some ["pkg/a_validator.go_validator.go"] ∧
      pathBase "pkg/a.go.go" = "a.go" ++ ".go" ∧
      pathJoin (pathDir "pkg/a.go.go") ("a.go" ++ suffix) = "pkg/a.go_validator.go" := by
  decide

/-- C9: `title` is idempotent, for tables of package `unicode` with the
properties `Unicode.Lawful`: after `title` no `id` is left to replace and
every first letter of a word is already in title case. -/
theorem C9_title_idempotent (U : Unicode) (hU : U.Lawful) (s : String) :
    title U (title U s) = title U s := by
  have hid : ∀ l, stringsReplaceGo "id".data "ID".data 0 l = replaceId l := stringsReplaceGo_id
  simp only [title, stringsTitle, stringsReplace, hid]
  have h1 : hasId (stringsTitleGo U ' ' (replaceId s.data)) = false :=
    hasId_stringsTitleGo U hU _ _ (hasId_replaceId _)
  rw [replaceId_of_not_hasId _ h1, stringsTitleGo_idem U hU _ _ _ rfl]

set_option maxRecDepth 20000 in
/-- C9 at the name `user_id`, whose transform is `User_ID`. -/
theorem C9_witness :
    title asciiTables "user_id" = "User_ID" ∧
      title asciiTables (title asciiTables "user_id") = title asciiTables "user_id" :=
  ⟨by decide, C9_title_idempotent asciiTables asciiTables_lawful "user_id"⟩

set_option maxRecDepth 40000 in
/-- C10 (failing input): for the field `Name string` whose tag is written as
the interpreted string literal `"validator:\"required\""`, the literal denotes
the tag `validator:"required"`, whose `validator` value has `required` as its
first marker, and `handleField` generates no rule: it removes back quotes only
and hands the quoted literal to `reflect.StructTag`. The same tag written as a
raw string literal yields the rule. -/
theorem C10_interpreted_tag_yields_no_rule :
    handleField [interpretedTagField] (State.init false) = some (State.init false) ∧
    strconvUnquote interpretedTag.data = some "validator:\"required\"".data ∧
    (stringsSplit (structTagGet "validator:\"required\"" "validator") ',').head?
      = some "required" ∧
    tagValuesOf interpretedTag = [""] ∧
    handleField [Field.mk ["Name"] (Expr.Ident "string") (some requiredTag)] (State.init false)
      = some { State.init false with curFields := [textualRule "Name"] } := by
  decide

/-- C11: for every eligible field whose first declared name is `F`, the rule
that `handleField` appends depends on `F` and on the value category only: for
a textual field the predicate is `src.F == ""`, for a numeric field it is
`src.F == 0`, in both cases the error expression is `errors.New` of the
message `field F can't be empty`, and an eligible field is textual or numeric. -/
theorem C11_rule_is_function_of_name_and_category (f : Field) (s : State) (F : String)
    (more : List String) (hnames : f.Names = F :: more) (hel : eligible f = true) :
    (categoryOf f.Typ = Category.textual →
      handleField [f] s = some { s with curFields := s.curFields ++
        [field.mk ("src." ++ F ++ " == \"\"") ("errors.New(\"field " ++ F ++ " can't be empty\")")] }) ∧
    (categoryOf f.Typ = Category.numeric →
      handleField [f] s = some { s with curFields := s.curFields ++
        [field.mk ("src." ++ F ++ " == 0") ("errors.New(\"field " ++ F ++ " can't be empty\")")] }) ∧
    (categoryOf f.Typ = Category.textual ∨ categoryOf f.Typ = Category.numeric) := by
  have hne : f.Names ≠ [] := by simp [hnames]
  have hrun : handleField [f] s = some { s with curFields := s.curFields ++ [ruleOf f] } := by
    simp [handleField, handleFieldEach_spec f s hne, hel]
  have hhead : f.Names.headD "" = F := by simp [hnames]
  rcases eligible_category f hel with ⟨hc, hr⟩ | ⟨hc, hr⟩
  · refine ⟨fun _ => ?_, fun h => ?_, Or.inl hc⟩
    · rw [hrun, hr, hhead]
      rfl
    · rw [hc] at h
      cases h
  · refine ⟨fun h => ?_, fun _ => ?_, Or.inr hc⟩
    · rw [hc] at h
      cases h
    · rw [hrun, hr, hhead]
      rfl

set_option maxRecDepth 20000 in
/-- C11 at the fields `Name string` and `Value int` of the type `U`: the rules
are those of the generated artifact `t_validator.go`. -/
theorem C11_witness :
    handleField [Field.mk ["Name"] (Expr.Ident "string") (some requiredTag)] (State.init false)
      = some { State.init false with curFields :=
          [field.mk "src.Name == \"\"" "errors.New(\"field Name can't be empty\")"] } ∧
    handleField [Field.mk ["Value"] (Expr.Ident "int") (some requiredTag)] (State.init false)
      = some { State.init false with curFields :=
          [field.mk "src.Value == 0" "errors.New(\"field Value can't be empty\")"] } :=
  ⟨(C11_rule_is_function_of_name_and_category
      (Field.mk ["Name"] (Expr.Ident "string") (some requiredTag)) (State.init false) "Name" []
      rfl (by decide)).1 (by decide),
   (C11_rule_is_function_of_name_and_category
      (Field.mk ["Value"] (Expr.Ident "int") (some requiredTag)) (State.init false) "Value" []
      rfl (by decide)).2.1 (by decide)⟩

/-- C12: for every file name that the filter of directory mode accepts (it
ends in `.go` and not in `_validator.go`), the output file name that
`handleFile` derives from it ends in `_validator.go` and differs from the
name, so the walk function of directory mode skips a file of that name without
calling `handleFile`; for a plain name in any directory the last element of
the source path is the name and the last element of the output path is the
derived name. -/
theorem C12_output_name_is_rejected_by_filter (name : String)
    (hgo : stringsHasSuffix name ".go" = true) (hnot : stringsHasSuffix name suffix = false) :
    stringsHasSuffix (stringsReplace name ".go" suffix) suffix = true ∧
    stringsReplace name ".go" suffix ≠ name ∧
    (∀ U curPath parsed s,
      walkFn U curPath (FsNode.file (stringsReplace name ".go" suffix) parsed) s
        = some (s, WalkResult.nil)) ∧
    (plainName name.data → ∀ dir,
      pathBase (pathJoin dir name) = name ∧
      pathBase (fullPathOf "" (pathJoin dir name)) = stringsReplace name ".go" suffix) := by
  have hout := stringsReplace_go_hasSuffix name hgo
  refine ⟨hout, ?_, ?_, ?_⟩
  · intro h
    rw [h, hnot] at hout
    cases hout
  · intro U curPath parsed s
    simp [walkFn, hout]
  · intro hplain dir
    have hbase := pathBase_pathJoin dir name hplain
    refine ⟨hbase, ?_⟩
    simp only [fullPathOf, hbase, if_true]
    exact pathBase_pathJoin _ _ (stringsReplace_go_plain name hgo hplain)

set_option maxRecDepth 20000 in
/-- C12 at the file name `a.go` in the directory `proj`. -/
theorem C12_witness :
    stringsReplace "a.go" ".go" suffix = "a_validator.go" ∧
    stringsHasSuffix (stringsReplace "a.go" ".go" suffix) suffix = true ∧
    pathBase (fullPathOf "" (pathJoin "proj" "a.go")) = stringsReplace "a.go" ".go" suffix := by
  have h := C12_output_name_is_rejected_by_filter "a.go" (by decide) (by decide)
  exact ⟨by decide, h.1, (h.2.2.2 (by unfold plainName; decide) "proj").2⟩

set_option maxRecDepth 40000 in
/-- C13 (failing input): in a recursive walk over the directory `proj` of
package `p`, the unit `proj/sub/b.go`, which declares the package `sub`, gets a
header with the package clause `package p`; file mode on the same unit, with
the package of its own directory, writes `package sub`. -/
theorem C13_subdirectory_unit_gets_root_package :
    (handleDirMode asciiTables (some "p") "proj" nestedTree (State.init true)).map
        (fun r => r.1.written)
      = some [("proj/a_validator.go", "package p\n\timport(\n\t\t\"errors\"\n\t)"),
          ("proj/sub/b_validator.go", "package p\n\timport(\n\t\t\"errors\"\n\t)")] ∧
    (handleFileMode asciiTables (some "sub") "proj/sub/b.go" (some ⟨"sub", []⟩)
        (State.init false)).map (fun r => r.1.written)
      = some [("proj/sub/b_validator.go", "package sub\n\timport(\n\t\t\"errors\"\n\t)")] := by
  decide

/-- C14: for every type name `s`, `title s` has no `i` directly followed by a
`d` (for tables of package `unicode` with the properties `Unicode.Lawful`), a
name that ends in `id` yields a transformed name that ends in `ID`, and both
generated functions are named `Validate` followed by the same transformed name,
the reference validator with `Pointer` appended to the name of the value
validator; these names are the ones in the rendered text. -/
theorem C14_title_leaves_no_id (U : Unicode) (hU : U.Lawful) (s : String) :
    hasId (title U s).data = false ∧
    (stringsHasSuffix s "id" = true → stringsHasSuffix (title U s) "ID" = true) ∧
    (∀ fields,
      (valueValidator U ⟨s, fields⟩).name = "Validate" ++ htmlEscape (title U s) ∧
      (pointerValidator U ⟨s, fields⟩).name
        = (valueValidator U ⟨s, fields⟩).name ++ "Pointer" ∧
      renderValue U ⟨s, fields⟩ = (valueValidator U ⟨s, fields⟩).text ∧
      renderPointer U ⟨s, fields⟩ = "\n" ++ (pointerValidator U ⟨s, fields⟩).text ∧
      (∀ g : GoFunc, g.text = "\n// " ++ g.name ++ " Validate " ++ g.subject ++ "\nfunc "
        ++ g.name ++ "(src " ++ g.param ++ ") error \x7b\n" ++ stmtsText g.body ++ "\x7d\n")) := by
  refine ⟨hasId_title U hU s, title_suffix_ID U s, ?_⟩
  intro fields
  refine ⟨rfl, ?_, renderValue_eq_text U _, renderPointer_eq_text U _, GoFunc.text_eq_name⟩
  simp only [GoFunc.name, valueValidator, pointerValidator, String.append_assoc]

set_option maxRecDepth 20000 in
/-- C14 at the type name `user_id`: the transformed name is `User_ID`. -/
theorem C14_witness :
    title asciiTables "user_id" = "User_ID" ∧
    hasId (title asciiTables "user_id").data = false ∧
    stringsHasSuffix (title asciiTables "user_id") "ID" = true := by
  have h := C14_title_leaves_no_id asciiTables asciiTables_lawful "user_id"
  exact ⟨by decide, h.1, h.2.1 (by decide)⟩

/-- C15: for every field whose declared type is of an unsupported category,
that is, anything but an identifier that `isBuiltIn` accepts, `handleField`
returns with the state unchanged, without a rule and without a panic, whatever
the tag and the names are; a struct type whose only field is such a field has
an empty rule list. Pointers, slices, maps, anonymous structs, qualified names
and the identifiers `bool` and `MyInt` are of an unsupported category. -/
theorem C15_unsupported_type_yields_no_rule (U : Unicode) (f : Field) (s : State)
    (name : String) (hun : supportedType f = false) :
    handleField [f] s = some s ∧
    (s.curFields = [] →
      ∃ s2, handleStruct U name (Expr.StructType (some [f])) s = some s2 ∧ s2.curFields = []) ∧
    (∀ names tag, ∀ typ ∈ [Expr.StarExpr (Expr.Ident "int"), Expr.ArrayType (Expr.Ident "string"),
        Expr.MapType (Expr.Ident "string") (Expr.Ident "int"), Expr.StructType (some []),
        Expr.SelectorExpr (Expr.Ident "time") "Time", Expr.Ident "bool", Expr.Ident "MyInt"],
      supportedType (Field.mk names typ tag) = false) := by
  have hrun : handleField [f] s = some s := by
    simp [handleField, handleFieldEach_unsupported f s hun]
  refine ⟨hrun, ?_, ?_⟩
  · intro hempty
    have h2 : handleField [f] { s with curStruct := name } = some { s with curStruct := name } := by
      simp [handleField, handleFieldEach_unsupported f _ hun]
    refine ⟨execTpl U { s with curStruct := name }, ?_, ?_⟩
    · simp [handleStruct, h2]
    · simpa [execTpl] using hempty
  · intro names tag typ hmem
    simp only [List.mem_cons, List.mem_singleton, List.not_mem_nil, or_false] at hmem
    rcases hmem with rfl | rfl | rfl | rfl | rfl | rfl | rfl <;>
      simp [supportedType, Field.Typ, isBuiltIn]

set_option maxRecDepth 20000 in
/-- C15 at the field `P *int` with the required marker. -/
theorem C15_witness :
    requiredMarker pointerField = true ∧
      handleField [pointerField] (State.init false) = some (State.init false) :=
  ⟨by decide,
    (C15_unsupported_type_yields_no_rule asciiTables pointerField (State.init false) "T"
      (by decide)).1⟩

set_option maxRecDepth 20000 in
/-- C16 (failing input): for the declaration `A, B string` with the required
marker `handleField` generates the rule of `A` alone; `B` gets no rule. -/
theorem C16_second_name_gets_no_rule :
    handleField [twoNamesField] (State.init false)
      = some { State.init false with curFields := [textualRule "A"] } := by
  decide

set_option maxRecDepth 20000 in
/-- C17 (failing input): for the embedded field `string` with the required
marker, which declares no name, `handleField` does not return: the access
`each.Names[0]` is out of range. The same holds for an embedded `int`. -/
theorem C17_embedded_field_panics :
    handleField [embeddedField] (State.init false) = none ∧
      handleField [Field.mk [] (Expr.Ident "int") (some requiredTag)] (State.init false)
        = none := by
  decide

set_option maxRecDepth 40000 in
/-- C18 (failing input): in file mode on the source `pkg/model.txt`, whose
name holds no `.go`, the output path is the source path itself, and
`handleFile` writes the header over the source file. -/
theorem C18_source_without_go_is_overwritten :
    fullPathOf "" "pkg/model.txt" = "pkg/model.txt" ∧
    (handleFileMode asciiTables (some "p") "pkg/model.txt" (some ⟨"p", []⟩)
        (State.init false)).map (fun r => r.1.written)
      = some [("pkg/model.txt", "package p\n\timport(\n\t\t\"errors\"\n\t)")] := by
  decide

/-- C19: if `curFields` and `curBuf` are empty when `handleFile` is entered,
then `curFields` is empty at every entry to `handleStruct` during the walk, so
that a struct type entered there gets the rules of its own fields only; when
`handleFile` returns, `curFields` and `curBuf` are empty again and the file it
wrote starts with the header of this unit; and `handleFile` does return when
every field declaration of the struct types of the file declares a name. -/
theorem C19_state_does_not_leak (U : Unicode) (curPath : String) (file : File) (s : State)
    (hF : s.curFields = []) (hB : s.curBuf = "") :
    (∀ e ∈ structEntries U curPath file s, e.curFields = []) ∧
    (∀ e ∈ structEntries U curPath file s, ∀ name fields, fields ≠ [] →
      (∀ f ∈ fields, f.Names ≠ []) →
      ∃ s2, handleStruct U name (Expr.StructType (some fields)) e = some s2 ∧
        s2.curFields = (fields.filter eligible).map ruleOf) ∧
    (∀ s2, handleFile U curPath file s = some s2 →
      s2.curFields = [] ∧ s2.curBuf = "" ∧
      (s.dst = "" → ∃ body,
        s2.written = s.written ++ [(fullPathOf "" curPath, headerOf s.curPkg ++ body)])) ∧
    (file.named → ∃ s2, handleFile U curPath file s = some s2) := by
  have hF0 : (addImports (pathDir curPath) { s with handed := s.handed ++ [curPath] }).curFields
      = [] := by
    simpa [addImports] using hF
  have hclean := structEntriesDecls_clean U file.Decls _ hF0
  refine ⟨hclean, ?_, ?_, ?_⟩
  · intro e he name fields hne hnames
    exact handleStruct_own_rules U name fields e hne hnames (hclean e he)
  · intro s2 h
    simp only [handleFile, Option.map_eq_some'] at h
    obtain ⟨s1, h1, rfl⟩ := h
    obtain ⟨hc, t, ht⟩ := walkDecls_invariant U _ _ _ hF0 h1
    have hfr := walkDecls_frame U _ _ _ h1
    simp only [addImports, String.length_append] at hfr
    have hp : ("package " : String).length = 8 := by decide
    have hlen : s1.curBuf.length ≠ 0 := by omega
    refine ⟨by simpa [hlen] using hc, by simp, ?_⟩
    intro hdst
    refine ⟨t, ?_⟩
    have hbuf : s1.curBuf = headerOf s.curPkg ++ t := by
      rw [ht]
      simp [addImports, hdst, hB, headerOf, String.append_assoc]
    simp only [ne_eq, hlen, not_false_eq_true, if_true]
    simp [hfr.2.1, hfr.2.2, hdst, hbuf]
  · intro hn
    obtain ⟨s1, h1⟩ := walkDecls_total U file.Decls
      (addImports (pathDir curPath) { s with handed := s.handed ++ [curPath] }) hn
    have hw : handleFileWalked U curPath file s = some s1 := h1
    exact ⟨_, by rw [handleFile, hw, Option.map_some']⟩

set_option maxRecDepth 100000 in
/-- C19 at the unit `p/a.go` with the struct types `A` and `B`: `handleStruct`
is entered twice, both times with an empty rule list, and `handleFile` returns
with an empty rule list and an empty buffer. -/
theorem C19_witness :
    (structEntries asciiTables "p/a.go" twoStructFile stateP).map (·.curFields) = [[], []] ∧
    (∀ e ∈ structEntries asciiTables "p/a.go" twoStructFile stateP, e.curFields = []) ∧
    ∃ s2, handleFile asciiTables "p/a.go" twoStructFile stateP = some s2 ∧
      s2.curFields = [] ∧ s2.curBuf = "" := by
  have h := C19_state_does_not_leak asciiTables "p/a.go" twoStructFile stateP rfl rfl
  have hnamed : twoStructFile.named := by
    intro d hd
    simp only [twoStructFile, List.mem_singleton] at hd
    subst hd
    intro sp hsp
    simp only [List.mem_cons, List.mem_singleton, List.not_mem_nil, or_false] at hsp
    rcases hsp with rfl | rfl <;> simp [Spec.named, Expr.named, Field.Names]
  obtain ⟨s2, hs2⟩ := h.2.2.2 hnamed
  exact ⟨by decide, h.1, s2, hs2, (h.2.2.1 s2 hs2).1, (h.2.2.1 s2 hs2).2.1⟩

end Validator
